import Mathlib

/-!
Warehouse plugin: the `lightReset` script templating and the `isClean` audit scan

A shallow embedding of `Warehouse::lightReset` and `Warehouse::isClean`
(`src/Warehouse/Warehouse.cpp`).

Conventions of the embedding.

* A `std::string` / C string is a `List Char`.  Every string the two functions
  handle is built from C strings (a string literal, `getenv`, `fgets` buffers,
  the result of `Utils::cRunScript`), so it holds no NUL character; the
  embedding does not model a terminator.
* The regular expression is matched in the C locale (the plugin never calls
  `setlocale`): `\s` is `isspace`, `[A-Z]` and `[0-9]` are the ASCII ranges.
  `regexec` follows the POSIX leftmost-longest rule, also for the groups.
* Offsets (`int pos`, `regoff_t`, `size_t`) are natural numbers; `npos` is
  `none`.  No offset of these functions can reach `2^31` on a script that the
  device can hold, so no wrap-around is modelled.
* The process environment, `popen`, `Utils::cRunScript`,
  `Utils::isFileExistsAndOlderThen`, `Utils::String::trim` and the contents of
  the configuration file are parameters.  Each call of an external capability
  is appended to a call log, so that "is not consulted" can be stated.
-/

namespace Warehouse

/-- A `std::string`. -/
abbrev Str := List Char

/-! ## lightReset -/

/-- The macro `LIGHT_RESET_SCRIPT`. -/
def LIGHT_RESET_SCRIPT : Str :=
  "rm -rf /opt/netflix/* SD_CARD_MOUNT_PATH/netflix/* XDG_DATA_HOME/* XDG_CACHE_HOME/* XDG_CACHE_HOME/../.sparkStorage/ /opt/QT/home/data/* /opt/hn_service_settings.conf /opt/apps/common/proxies.conf /opt/lib/bluetooth".toList

/-- The command line given to `popen` for the SD card mount path. -/
def MOUNT_PATH_COMMAND : Str :=
  "cat  /proc/mounts | grep mmcblk0p1 | awk '{print $2}' ".toList

/-- The variable name with the shell fallback. -/
def SD_CARD_MOUNT_PATH : Str := "SD_CARD_MOUNT_PATH".toList

/-- The class `\s` of the regular expression: `isspace` in the C locale. -/
def isSpace (c : Char) : Bool :=
  c == ' ' || c == '\t' || c == '\n' || c == '\x0b' || c == '\x0c' || c == '\r'

/-- The bracket expression `[A-Z_]`. -/
def isNameStart (c : Char) : Bool :=
  (decide ('A' ≤ c) && decide (c ≤ 'Z')) || c == '_'

/-- The bracket expression `[0-9A-Z_]`. -/
def isNameChar (c : Char) : Bool :=
  (decide ('0' ≤ c) && decide (c ≤ '9')) || isNameStart c

/-- One `regmatch_t`: start and end offset of a (sub)match. -/
structure regmatch_t where
  rm_so : Nat
  rm_eo : Nat
  deriving DecidableEq, Repr

/-- The array `regmatch_t rm[4]` after a successful `regexec`. -/
structure Regmatch where
  rm0 : regmatch_t
  rm1 : regmatch_t
  rm2 : regmatch_t
  rm3 : regmatch_t
  deriving DecidableEq, Repr

/-- A match of `(\s+)([A-Z_][0-9A-Z_]*)(\S*)` that begins at the head of `s`:
the lengths of the three groups.  `\s+` must end where the white space ends
(the next group starts with a character that is not white space), and under
the POSIX leftmost-longest rule group 2 takes the longest run of name
characters and group 3 the rest of the run of characters that are not white
space. -/
def matchHere (s : Str) : Option (Nat × Nat × Nat) :=
  let ws := s.takeWhile isSpace
  match ws, s.dropWhile isSpace with
  | [], _ => none
  | _ :: _, [] => none
  | _ :: _, c :: r =>
    if isNameStart c then
      let name := c :: r.takeWhile isNameChar
      let suffix := (r.dropWhile isNameChar).takeWhile (fun x => !isSpace x)
      some (ws.length, name.length, suffix.length)
    else none

/-- The search of `regexec`: the leftmost start with a match; `off` is the
offset of `s` in the searched string. -/
def regexecAt : Str → Nat → Option Regmatch
  | [], _ => none
  | c :: cs, off =>
    match matchHere (c :: cs) with
    | some (a, b, d) =>
      some ⟨⟨off, off + a + b + d⟩, ⟨off, off + a⟩, ⟨off + a, off + a + b⟩,
        ⟨off + a + b, off + a + b + d⟩⟩
    | none => regexecAt cs (off + 1)

/-- The call `regexec(&rx, s, 4, rm, 0)` for the compiled expression
`(\s+)([A-Z_][0-9A-Z_]*)(\S*)`; `none` is `REG_NOMATCH`. -/
def regexec (s : Str) : Option Regmatch := regexecAt s 0

/-- The member `std::string::substr(pos, n)`. -/
def substr (s : Str) (pos n : Nat) : Str := (s.drop pos).take n

/-- The member `std::string::replace(pos, n, str)`. -/
def replace (s : Str) (pos n : Nat) (str : Str) : Str :=
  s.take pos ++ str ++ s.drop (pos + n)

/-- The member `std::string::find_first_not_of` with a set of characters. -/
def find_first_not_of (s : Str) (set : Str) : Option Nat :=
  match s with
  | [] => none
  | c :: cs => if set.contains c then (find_first_not_of cs set).map (· + 1) else some 0

/-- The member `std::string::find_last_not_of` with a set of characters. -/
def find_last_not_of (s : Str) (set : Str) : Option Nat :=
  match s with
  | [] => none
  | c :: cs =>
    match find_last_not_of cs set with
    | some i => some (i + 1)
    | none => if set.contains c then none else some 0

/-- The two `erase` calls on `scmp`: `erase(0, find_first_not_of(..))` removes
everything when nothing is found (`npos`), and
`erase(find_last_not_of(..) + 1)` erases from offset `npos + 1 = 0` then. -/
def eraseAround (scmp : Str) : Str :=
  let set : Str := " \n\r\t".toList
  let s1 := match find_first_not_of scmp set with
    | some i => scmp.drop i
    | none => []
  match find_last_not_of s1 set with
  | some j => s1.take (j + 1)
  | none => []

/-- A call of an external capability made by `lightReset`. -/
inductive Call where
  | getenv (name : Str)
  | popen (command : Str)
  deriving DecidableEq, Repr

/-- The process environment and the shell, as `lightReset` sees them:
`getenv` gives `none` for a null pointer; `popen` gives `none` when the pipe
cannot be opened and otherwise everything the command wrote. -/
structure Sys where
  getenv : Str → Option Str
  popen : Str → Option Str

/-- The pointer `envVar` after the lookup and the fallback (lines 440-464),
with the calls made. -/
def lookup (sys : Sys) (var : Str) : Option Str × List Call :=
  let envVar := sys.getenv var
  if SD_CARD_MOUNT_PATH = var ∧ (envVar = none ∨ envVar = some []) then
    match sys.popen MOUNT_PATH_COMMAND with
    | none => (envVar, [Call.getenv var, Call.popen MOUNT_PATH_COMMAND])
    | some out => (some (eraseAround out), [Call.getenv var, Call.popen MOUNT_PATH_COMMAND])
  else (envVar, [Call.getenv var])

/-- The string `replace` computed at lines 466-483 from `envVar`, the leading
white space `rm[1]` and the suffix `rm[3]`. -/
def replacement (envVar : Option Str) (leading suffix : Str) : Str :=
  match envVar with
  | some (e :: es) =>
    let replace := (e :: es) ++ suffix
    if replace.length > 0 then
      if replace.head? = some '/' then
        match find_first_not_of replace ['/'] with
        | some nr => if replace.get? nr ≠ some '*' then leading ++ replace else []
        | none => []
      else leading ++ replace
    else replace
  | _ => []

/-- The variables of the loop, and the log of external calls. -/
structure State where
  script : Str
  pos : Nat
  calls : List Call
  deriving DecidableEq, Repr

/-- One evaluation of the loop condition and, when it holds, of the body
(lines 436-485).  `none`: `regexec` found no match and the loop ends. -/
def step (sys : Sys) (st : State) : Option State :=
  match regexec (st.script.drop st.pos) with
  | none => none
  | some rm =>
    let var := substr st.script (st.pos + rm.rm2.rm_so) (rm.rm2.rm_eo - rm.rm2.rm_so)
    let (envVar, calls) := lookup sys var
    let replace := replacement envVar
      (substr st.script (st.pos + rm.rm1.rm_so) (rm.rm1.rm_eo - rm.rm1.rm_so))
      (substr st.script (st.pos + rm.rm3.rm_so) (rm.rm3.rm_eo - rm.rm3.rm_so))
    some ⟨Warehouse.replace st.script (st.pos + rm.rm0.rm_so) (rm.rm0.rm_eo - rm.rm0.rm_so) replace,
      st.pos + rm.rm0.rm_so + replace.length, st.calls ++ calls⟩

/-- The `while` loop, run for at most `fuel` evaluations of its condition;
`none` when the fuel does not suffice to reach the end of the loop. -/
def loop (sys : Sys) : Nat → State → Option State
  | 0, _ => none
  | fuel + 1, st =>
    match step sys st with
    | none => some st
    | some st' => loop sys fuel st'

/-- The loop from an arbitrary state, with one more evaluation than there are
characters after the cursor. -/
def runFrom (sys : Sys) (st : State) : Option State :=
  loop sys (st.script.length - st.pos + 1) st

/-- The script that `lightReset` hands to `RunScriptIARM`, computed from the
template `script` (with the call log): lines 430-486. -/
def lightReset (sys : Sys) (template : Str) : Option State :=
  runFrom sys ⟨template, 0, []⟩

/-- The script alone, as `lightReset` passes it on. -/
def resolve (sys : Sys) (template : Str) : Option Str :=
  (lightReset sys template).map (fun st => st.script)

/-- Whether a white-space character is immediately followed by a character of
`[A-Z_]` somewhere in the string: the string holds a placeholder. -/
def hasPlaceholder : Str → Bool
  | [] => false
  | [_] => false
  | c :: d :: r => (isSpace c && isNameStart d) || hasPlaceholder (d :: r)

/-- The string does not end in white space. -/
def endsNonSpace (s : Str) : Bool :=
  match s.getLast? with
  | none => true
  | some c => !isSpace c

/-- The string is empty or starts with white space. -/
def startsSpaceOrEmpty (s : Str) : Bool :=
  match s with
  | [] => true
  | c :: _ => isSpace c

/-- The text `pre ++ leading ++ name ++ suffix ++ rest` has its leftmost
placeholder `(leading, name, suffix)` right after `pre`: `pre` holds no
placeholder and does not end in white space, `leading` is a non-empty run of
white space, `name` matches `[A-Z_][0-9A-Z_]*` and is not continued by
`suffix`, `suffix` holds no white space, and `rest` is empty or starts with
white space. -/
def Placeholder (pre leading name suffix rest : Str) : Prop :=
  hasPlaceholder pre = false ∧ endsNonSpace pre = true ∧
  leading ≠ [] ∧ leading.all isSpace = true ∧
  (name.head?.map isNameStart = some true ∧ name.all isNameChar = true) ∧
  ((suffix.head?.map isNameChar ≠ some true) ∧ suffix.all (fun x => !isSpace x) = true) ∧
  startsSpaceOrEmpty rest = true

instance (pre leading name suffix rest : Str) :
    Decidable (Placeholder pre leading name suffix rest) := by
  unfold Placeholder; infer_instance

/-- The environment in which `FOO` is `/data` and nothing else is set. -/
def envFoo : Sys :=
  { getenv := fun n => if n = "FOO".toList then some "/data".toList else none
    popen := fun _ => none }

/-- The state `st` seen from a longer script: `done` put in front of the
script, the cursor moved accordingly, `calls` put in front of the log. -/
def shift (done : Str) (calls : List Call) (st : State) : State :=
  ⟨done ++ st.script, done.length + st.pos, calls ++ st.calls⟩

/-- The number of characters after the cursor. -/
def remaining (st : State) : Nat := st.script.length - st.pos

/-- The environment in which no variable is set and no pipe can be opened. -/
def envNone : Sys :=
  { getenv := fun _ => none
    popen := fun _ => none }

/-- The environment in which `ROOT` is `/` and nothing else is set. -/
def envRoot : Sys :=
  { getenv := fun n => if n = "ROOT".toList then some "/".toList else none
    popen := fun _ => none }

/-- A space, tab, carriage return or line feed. -/
def isBlank (c : Char) : Bool :=
  c == ' ' || c == '\n' || c == '\r' || c == '\t'

/-- Following the words of the specification: the string with its leading and
trailing blanks (space, tab, CR, LF) removed. -/
def trimBlanks (s : Str) : Str :=
  (s.dropWhile isBlank).rdropWhile isBlank

/-- The environment in which `SD_CARD_MOUNT_PATH` is set but empty and the
mount table command writes `out`. -/
def envSdCard (out : Str) : Sys :=
  { getenv := fun n => if n = SD_CARD_MOUNT_PATH then some [] else none
    popen := fun c => if c = MOUNT_PATH_COMMAND then some out else none }

/-! ## isClean -/

/-- The macro `CUSTOM_DATA_FILE`. -/
def CUSTOM_DATA_FILE : Str := "/lib/rdk/cust-data.conf".toList

/-- The helpers of `utils.h` that `isClean` calls; their code is not part of
`Warehouse.cpp`.  `trim` is `Utils::String::trim` (the string after the call),
`cRunScript` gives what the command line writes, `isFileExistsAndOlderThen`
is the check of a path against an age in seconds. -/
structure Utils where
  trim : Str → Str
  cRunScript : Str → Str
  isFileExistsAndOlderThen : Str → Int → Bool

/-- A call of an external capability made by `isClean`. -/
inductive UCall where
  | cRunScript (script : Str)
  | isFileExistsAndOlderThen (path : Str) (age : Int)
  deriving DecidableEq, Repr

/-- The lines that successive calls of `getline` (delimiter line feed) read from
a stream with the content `s`: a final line feed does not start a new line. -/
def getlines : Str → List Str
  | [] => []
  | c :: cs =>
    if c = '\n' then [] :: getlines cs
    else
      match getlines cs with
      | [] => [[c]]
      | l :: ls => (c :: l) :: ls

/-- The search for `pat` at the offsets `off`, `off + 1`, ... of a string of
which `s` is the part from `off` on. -/
def findAt : Str → Str → Nat → Option Nat
  | [], pat, off => if pat = [] then some off else none
  | c :: cs, pat, off =>
    if pat.isPrefixOf (c :: cs) then some off else findAt cs pat (off + 1)

/-- The member `std::string::find(str, pos)`; `none` is `npos`. -/
def find (s pat : Str) (pos : Nat) : Option Nat :=
  if pos > s.length then none else findAt (s.drop pos) pat pos

/-- The command line that extracts the name of the variable (line 556). -/
def sedScript (path : Str) : Str :=
  "echo '".toList ++ path ++
    "' | sed -r \"s/([^$]*)([$\\\x7b]*)([^$\\\x7b\\\x7d\\/]*)(.*)/\\3/\"".toList

/-- The command line that evaluates the variable (line 563). -/
def echoScript (varName : Str) : Str :=
  ". /etc/device.properties; echo \"$".toList ++ varName ++ "\"".toList

/-- The string `maxDepth` of lines 580-583. -/
def maxDepth (path : Str) : Str :=
  if path.length > 1 ∧ find path "/*".toList (path.length - 2) ≠ none then []
  else "-maxdepth 1 ".toList

/-- The `find` command line (lines 585-589). -/
def findScript (path : Str) : Str :=
  ". /etc/device.properties; fp=\"".toList ++ path ++
    "\"; p=$\x7bfp%/*\x7d; f=$\x7bfp##*/\x7d; find $p -mindepth 1 ".toList ++ maxDepth path ++
    "! -path \"*/\\.*\" -name \"$f\" 2>&1 | head -n 10".toList

/-- The condition of the `find_if` at line 577. -/
def isWildcard (path : Str) : Bool :=
  path.any (fun c => c == '$' || c == '*' || c == '?' || c == '+')

/-- The array `existedObjects`, the counter `totalPathsCounter` (incremented
inside the log calls) and the log of external calls. -/
structure Scan where
  existedObjects : List Str
  totalPathsCounter : Nat
  calls : List UCall
  deriving DecidableEq, Repr

/-- The body of the loop over the lines of the `find` output (lines 599-615). -/
def scanLine (u : Utils) (age : Int) (st : Scan) (line : Str) : Scan :=
  if age > -1 then
    let objectExists := u.isFileExistsAndOlderThen line age
    ⟨if objectExists then st.existedObjects ++ [line] else st.existedObjects,
      st.totalPathsCounter + 1, st.calls ++ [UCall.isFileExistsAndOlderThen line age]⟩
  else
    ⟨st.existedObjects ++ [line], st.totalPathsCounter + 1, st.calls⟩

/-- The second half of the loop body (lines 577-637): the wildcard branch and
the branch of a plain path. -/
def scanObjects (u : Utils) (age : Int) (st : Scan) (path : Str) : Scan :=
  if isWildcard path then
    let script := findScript path
    let result := u.trim (u.cRunScript script)
    let st1 : Scan := ⟨st.existedObjects, st.totalPathsCounter,
      st.calls ++ [UCall.cRunScript script]⟩
    if result.length > 1 then
      (getlines result).foldl (scanLine u age) st1
    else
      ⟨st1.existedObjects, st1.totalPathsCounter + 1, st1.calls⟩
  else
    let objectExists := u.isFileExistsAndOlderThen path age
    ⟨if objectExists then st.existedObjects ++ [path] else st.existedObjects,
      st.totalPathsCounter + 1, st.calls ++ [UCall.isFileExistsAndOlderThen path age]⟩

/-- The strings `variable` (here `varName`) and `value` of lines 555-566 for a path that holds
a `$`, with the calls made. -/
def variableValue (u : Utils) (path : Str) : Str × Str × List UCall :=
  let script := sedScript path
  let varName := u.trim (u.cRunScript script)
  if varName.length > 0 then
    let script2 := echoScript varName
    (varName, u.trim (u.cRunScript script2),
      [UCall.cRunScript script, UCall.cRunScript script2])
  else (varName, [], [UCall.cRunScript script])

/-- The body of the loop over `listPathsToRemove` (lines 552-637). -/
def scanPath (u : Utils) (age : Int) (st : Scan) (path : Str) : Scan :=
  if path.contains '$' then
    let (_, value, calls) := variableValue u path
    if value.length = 0 then
      ⟨st.existedObjects, st.totalPathsCounter + 1, st.calls ++ calls⟩
    else
      scanObjects u age ⟨st.existedObjects, st.totalPathsCounter, st.calls ++ calls⟩ path
  else scanObjects u age st path

/-- The loop over `listPathsToRemove` (lines 549-638). -/
def scanPaths (u : Utils) (age : Int) (st : Scan) (paths : List Str) : Scan :=
  paths.foldl (scanPath u age) st

/-- The vector `listPathsToRemove` read from the configuration file (lines
526-536). -/
def listPathsToRemove (u : Utils) (content : Str) : List Str :=
  (getlines content).foldl
    (fun acc line =>
      let line := u.trim line
      if line.length > 0 then
        match line.head? with
        | some firstChar => if firstChar ≠ '#' ∧ firstChar ≠ '[' then acc ++ [line] else acc
        | none => acc
      else acc)
    []

/-- The members of the JSON object `response` that `isClean` sets. -/
structure Response where
  success : Option Bool
  error : Option Str
  clean : Option Bool
  files : Option (List Str)
  deriving DecidableEq, Repr

/-- What a call of `isClean` leaves: the response, the counter and the log of
external calls. -/
structure Result where
  response : Response
  totalPathsCounter : Nat
  calls : List UCall
  deriving DecidableEq, Repr

/-- The function `Warehouse::isClean` (lines 509-644); `customDataFile` is
`none` when the file cannot be opened and its content otherwise. -/
def isClean (u : Utils) (customDataFile : Option Str) (age : Int) : Result :=
  match customDataFile with
  | none =>
    ⟨⟨some false, some ("Can't open file ".toList ++ CUSTOM_DATA_FILE), some false, some []⟩,
      0, []⟩
  | some content =>
    let paths := listPathsToRemove u content
    if paths.length = 0 then
      ⟨⟨some false,
        some ("file ".toList ++ CUSTOM_DATA_FILE ++ " doesn't have any lines with paths".toList),
        none, some []⟩, 0, []⟩
    else
      let st := scanPaths u age ⟨[], 0, []⟩ paths
      ⟨⟨some true, none, some (st.existedObjects.length == 0), some st.existedObjects⟩,
        st.totalPathsCounter, st.calls⟩

/-- The pattern is skipped at lines 568-572: it holds a `$` and the value of
its variable is empty (the name of the variable is empty, or the value that
the device properties give is empty after trimming). -/
def skipped (u : Utils) (path : Str) : Bool :=
  path.contains '$' && (variableValue u path).2.1.isEmpty

/-- The candidate paths of a wildcard pattern: the lines of the trimmed output
of the `find` command, when that output is longer than one character. -/
def candidates (u : Utils) (path : Str) : List Str :=
  let result := u.trim (u.cRunScript (findScript path))
  if result.length > 1 then getlines result else []

/-- Following the words of the claim: what one pattern adds to `files`.  A
skipped pattern adds nothing, a wildcard pattern its candidates that
`isFileExistsAndOlderThen` accepts, a plain path itself when
`isFileExistsAndOlderThen` accepts it. -/
def contributionSpec (u : Utils) (age : Int) (path : Str) : List Str :=
  if skipped u path then []
  else if isWildcard path then
    (candidates u path).filter (fun line => u.isFileExistsAndOlderThen line age)
  else if u.isFileExistsAndOlderThen path age then [path] else []

/-- What one pattern adds to `files`: as `contributionSpec`, but a wildcard
pattern adds every candidate when `age` is not above `-1`. -/
def contribution (u : Utils) (age : Int) (path : Str) : List Str :=
  if skipped u path then []
  else if isWildcard path then
    if age > -1 then
      (candidates u path).filter (fun line => u.isFileExistsAndOlderThen line age)
    else candidates u path
  else if u.isFileExistsAndOlderThen path age then [path] else []

/-- Helpers for the examples: `trim` removes white space at both ends, the
device has the file `/opt/a.conf` and nothing else, and `find` prints the one
line `/opt/gone` for the pattern `/opt/*` (a dangling link) and nothing
otherwise. -/
def utilsExample : Utils :=
  { trim := fun s => (s.dropWhile isSpace).rdropWhile isSpace
    cRunScript := fun script =>
      if script = findScript "/opt/*".toList then "/opt/gone\n".toList else []
    isFileExistsAndOlderThen := fun p _ => p = "/opt/a.conf".toList }

/-- Helpers for an example: `trim` removes white space at both ends, the
directory `/data/missing` does not exist, so that the `find` command for the
pattern `/data/missing/*` writes its error message (standard error is merged
into the output by `2>&1`), and no path is accepted by
`isFileExistsAndOlderThen`. -/
def utilsMissingDir : Utils :=
  { trim := fun s => (s.dropWhile isSpace).rdropWhile isSpace
    cRunScript := fun script =>
      if script = findScript "/data/missing/*".toList then
        "find: /data/missing: No such file or directory\n".toList
      else []
    isFileExistsAndOlderThen := fun _ _ => false }

/-- A match found from the offset `cursor`, with offsets counted from the start
of the template. -/
def absolute (cursor : Nat) (rm : Regmatch) : Regmatch :=
  ⟨⟨cursor + rm.rm0.rm_so, cursor + rm.rm0.rm_eo⟩, ⟨cursor + rm.rm1.rm_so, cursor + rm.rm1.rm_eo⟩,
    ⟨cursor + rm.rm2.rm_so, cursor + rm.rm2.rm_eo⟩, ⟨cursor + rm.rm3.rm_so, cursor + rm.rm3.rm_eo⟩⟩

/-- Following the words of the specification: the successive leftmost matches
of the placeholder expression in the unmodified template, none overlapping
another: each search starts where the previous match ended.  At most `fuel`
searches; `none` when that does not reach the end. -/
def matchesFrom : Nat → Str → Nat → Option (List Regmatch)
  | 0, _, _ => none
  | fuel + 1, template, cursor =>
    match regexec (template.drop cursor) with
    | none => some []
    | some rm =>
      (matchesFrom fuel template (cursor + rm.rm0.rm_eo)).map (fun ms => absolute cursor rm :: ms)

/-- Following the words of the specification: the output for a list of matches
of the unmodified template, emitted left to right from `cursor`: the unmatched
text before each match, then the replacement of the match, and at the end the
text after the last match. -/
def emit (sys : Sys) (template : Str) : Nat → List Regmatch → Str
  | cursor, [] => template.drop cursor
  | cursor, m :: ms =>
    substr template cursor (m.rm0.rm_so - cursor) ++
      replacement (lookup sys (substr template m.rm2.rm_so (m.rm2.rm_eo - m.rm2.rm_so))).1
        (substr template m.rm1.rm_so (m.rm1.rm_eo - m.rm1.rm_so))
        (substr template m.rm3.rm_so (m.rm3.rm_eo - m.rm3.rm_so)) ++
      emit sys template m.rm0.rm_eo ms

/-- Following the words of the specification: the resolver that never modifies
the template. -/
def resolveImmutable (sys : Sys) (template : Str) : Option Str :=
  (matchesFrom (template.length + 1) template 0).map (emit sys template 0)

/-- The environment in which `A` is ` B`, `B` is `/b` and nothing else is
set. -/
def envNested : Sys :=
  { getenv := fun n =>
      if n = "A".toList then some " B".toList
      else if n = "B".toList then some "/b".toList else none
    popen := fun _ => none }

/-- The environment in which `A` is ` A` (white space and the name of the
variable itself) and nothing else is set. -/
def envSelf : Sys :=
  { getenv := fun n => if n = "A".toList then some " A".toList else none
    popen := fun _ => none }

/-- The environment in which `DOT` is `/.` and nothing else is set. -/
def envDot : Sys :=
  { getenv := fun n => if n = "DOT".toList then some "/.".toList else none
    popen := fun _ => none }

/-! ## Theorems -/

theorem isSpace_not_nameStart {c : Char} (h : isSpace c = true) : isNameStart c = false := by
  simp only [isSpace, Bool.or_eq_true, beq_iff_eq] at h
  rcases h with ((((h | h) | h) | h) | h) | h <;> subst h <;> decide

theorem isSpace_not_nameChar {c : Char} (h : isSpace c = true) : isNameChar c = false := by
  simp only [isSpace, Bool.or_eq_true, beq_iff_eq] at h
  rcases h with ((((h | h) | h) | h) | h) | h <;> subst h <;> decide

theorem nameStart_not_space {c : Char} (h : isNameStart c = true) : isSpace c = false := by
  cases hs : isSpace c
  · rfl
  · rw [isSpace_not_nameStart hs] at h; cases h

theorem nameChar_not_space {c : Char} (h : isNameChar c = true) : isSpace c = false := by
  cases hs : isSpace c
  · rfl
  · rw [isSpace_not_nameChar hs] at h; cases h

theorem nameStart_nameChar {c : Char} (h : isNameStart c = true) : isNameChar c = true := by
  simp [isNameChar, h]


/-! ### The regular expression search -/

theorem matchHere_eq (leading name suffix rest : Str)
    (hl : leading ≠ []) (hls : leading.all isSpace = true)
    (hn : name.head?.map isNameStart = some true) (hnc : name.all isNameChar = true)
    (hs : suffix.head?.map isNameChar ≠ some true)
    (hss : suffix.all (fun x => !isSpace x) = true)
    (hr : startsSpaceOrEmpty rest = true) :
    matchHere (leading ++ name ++ suffix ++ rest)
      = some (leading.length, name.length, suffix.length) := by
  obtain ⟨n0, ns, rfl⟩ : ∃ n0 ns, name = n0 :: ns := by
    cases name with
    | nil => simp at hn
    | cons a l => exact ⟨a, l, rfl⟩
  obtain ⟨l0, ls, rfl⟩ : ∃ l0 ls, leading = l0 :: ls := by
    cases leading with
    | nil => exact absurd rfl hl
    | cons a l => exact ⟨a, l, rfl⟩
  have hn0 : isNameStart n0 = true := by simpa using hn
  have hn0s : isSpace n0 = false := nameStart_not_space hn0
  have hns : ∀ a ∈ ns, isNameChar a = true := by
    intro a ha
    simp only [List.all_cons, Bool.and_eq_true, List.all_eq_true] at hnc
    exact hnc.2 a ha
  have hls' : ∀ a ∈ l0 :: ls, isSpace a = true := by
    simpa [List.all_eq_true] using hls
  have hss' : ∀ a ∈ suffix, (!isSpace a) = true := by
    simpa [List.all_eq_true] using hss
  have htw : (l0 :: ls ++ n0 :: ns ++ suffix ++ rest).takeWhile isSpace = l0 :: ls := by
    rw [List.append_assoc, List.append_assoc, List.takeWhile_append_of_pos hls']
    simp [List.takeWhile, hn0s]
  have hdw : (l0 :: ls ++ n0 :: ns ++ suffix ++ rest).dropWhile isSpace
      = n0 :: (ns ++ suffix ++ rest) := by
    rw [List.append_assoc, List.append_assoc, List.dropWhile_append_of_pos hls']
    simp [List.dropWhile, hn0s]
  have hsr : (suffix ++ rest).takeWhile isNameChar = [] := by
    cases suffix with
    | nil =>
      cases rest with
      | nil => rfl
      | cons r rs =>
        have : isSpace r = true := by simpa [startsSpaceOrEmpty] using hr
        simp [List.takeWhile, isSpace_not_nameChar this]
    | cons a as =>
      have : isNameChar a = false := by
        cases h : isNameChar a
        · rfl
        · simp [h] at hs
      simp [List.takeWhile, this]
  have hsd : (suffix ++ rest).dropWhile isNameChar = suffix ++ rest := by
    cases suffix with
    | nil =>
      cases rest with
      | nil => rfl
      | cons r rs =>
        have : isSpace r = true := by simpa [startsSpaceOrEmpty] using hr
        simp [List.dropWhile, isSpace_not_nameChar this]
    | cons a as =>
      have : isNameChar a = false := by
        cases h : isNameChar a
        · rfl
        · simp [h] at hs
      simp [List.dropWhile, this]
  have hrt : rest.takeWhile (fun x => !isSpace x) = [] := by
    cases rest with
    | nil => rfl
    | cons r rs =>
      have : isSpace r = true := by simpa [startsSpaceOrEmpty] using hr
      simp [List.takeWhile, this]
  have h1 : (ns ++ suffix ++ rest).takeWhile isNameChar = ns := by
    rw [List.append_assoc, List.takeWhile_append_of_pos hns, hsr, List.append_nil]
  have h2 : (ns ++ suffix ++ rest).dropWhile isNameChar = suffix ++ rest := by
    rw [List.append_assoc, List.dropWhile_append_of_pos hns, hsd]
  have h3 : (suffix ++ rest).takeWhile (fun x => !isSpace x) = suffix := by
    rw [List.takeWhile_append_of_pos hss', hrt, List.append_nil]
  unfold matchHere
  simp only [htw, hdw, hn0, h1, h2, h3, if_true]


theorem hasPlaceholder_tail {c : Char} {s : Str} (h : hasPlaceholder (c :: s) = false) :
    hasPlaceholder s = false := by
  cases s with
  | nil => rfl
  | cons d r =>
    simp only [hasPlaceholder, Bool.or_eq_false_iff] at h
    exact h.2

theorem endsNonSpace_tail {c d : Char} {s : Str} (h : endsNonSpace (c :: d :: s) = true) :
    endsNonSpace (d :: s) = true := by
  simpa [endsNonSpace, List.getLast?_cons_cons] using h

/-- After a white-space character, a text without placeholder continues, past
the white space, with a character that is not in `[A-Z_]`. -/
theorem dropWhile_head_of_noPlaceholder (s : Str) (c : Char) (hc : isSpace c = true)
    (h : hasPlaceholder (c :: s) = false) :
    ∀ d r, (c :: s).dropWhile isSpace = d :: r → isNameStart d = false := by
  induction s generalizing c with
  | nil => intro d r hd; simp [List.dropWhile, hc] at hd
  | cons e t ih =>
    intro d r hd
    cases he : isSpace e
    · simp only [List.dropWhile, hc, he] at hd
      simp only [hasPlaceholder, Bool.or_eq_false_iff, hc, Bool.true_and] at h
      have : e = d := by injection hd
      rw [← this]; exact h.1
    · have h' := hasPlaceholder_tail h
      apply ih e he h' d r
      simpa [List.dropWhile, hc] using hd

theorem matchHere_none_of_noPlaceholder (p t : Str) (hp : hasPlaceholder p = false)
    (he : endsNonSpace p = true) (hne : p ≠ []) : matchHere (p ++ t) = none := by
  obtain ⟨c, s, rfl⟩ : ∃ c s, p = c :: s := by
    cases p with
    | nil => exact absurd rfl hne
    | cons a l => exact ⟨a, l, rfl⟩
  cases hc : isSpace c
  · simp [matchHere, List.takeWhile, hc]
  · -- the white space that starts at `c` ends inside `p`
    have hex : ∃ x ∈ c :: s, isSpace x = false := by
      have hl := List.getLast?_eq_getLast (c :: s) (by simp)
      refine ⟨(c :: s).getLast (by simp), List.getLast_mem _, ?_⟩
      simpa [endsNonSpace, hl] using he
    have hdw : ∃ d r, (c :: s).dropWhile isSpace = d :: r := by
      cases hd : (c :: s).dropWhile isSpace with
      | nil =>
        rw [List.dropWhile_eq_nil_iff] at hd
        obtain ⟨x, hx, hxs⟩ := hex
        rw [hd x hx] at hxs; cases hxs
      | cons d r => exact ⟨d, r, rfl⟩
    obtain ⟨d, r, hd⟩ := hdw
    have hdn := dropWhile_head_of_noPlaceholder s c hc hp d r hd
    have hds : isSpace d = false := by
      have := List.head_dropWhile_not isSpace (c :: s) (by rw [hd]; simp)
      simpa [hd] using this
    have hsplit : c :: s = (c :: s).takeWhile isSpace ++ d :: r := by
      rw [← hd, List.takeWhile_append_dropWhile]
    have hall : ∀ a ∈ (c :: s).takeWhile isSpace, isSpace a = true :=
      fun a ha => List.mem_takeWhile_imp ha
    have h1 : ((c :: s) ++ t).dropWhile isSpace = d :: (r ++ t) := by
      conv_lhs => rw [hsplit]
      rw [List.append_assoc, List.dropWhile_append_of_pos hall]
      simp [List.dropWhile, hds]
    unfold matchHere
    rw [h1]
    dsimp only
    generalize List.takeWhile isSpace (c :: s ++ t) = w
    cases w <;> simp [hdn]

theorem regexecAt_append_of_noPlaceholder (p t : Str) (off : Nat)
    (hp : hasPlaceholder p = false) (he : endsNonSpace p = true) :
    regexecAt (p ++ t) off = regexecAt t (off + p.length) := by
  induction p generalizing off with
  | nil => simp
  | cons c s ih =>
    have hm := matchHere_none_of_noPlaceholder (c :: s) t hp he (by simp)
    have hs : hasPlaceholder s = false := hasPlaceholder_tail hp
    have hes : endsNonSpace s = true := by
      cases s with
      | nil => rfl
      | cons d r => exact endsNonSpace_tail he
    show regexecAt (c :: (s ++ t)) off = _
    rw [regexecAt, show c :: (s ++ t) = (c :: s) ++ t from rfl, hm]
    simp only
    rw [ih (off + 1) hs hes]
    have hlen : off + 1 + s.length = off + (c :: s).length := by
      simp only [List.length_cons]; omega
    rw [hlen]

/-- The result of `regexec` on a text whose leftmost placeholder follows
`pre`. -/
theorem regexec_placeholder (pre leading name suffix rest : Str)
    (h : Placeholder pre leading name suffix rest) :
    regexec (pre ++ leading ++ name ++ suffix ++ rest) =
      some ⟨⟨pre.length, pre.length + leading.length + name.length + suffix.length⟩,
        ⟨pre.length, pre.length + leading.length⟩,
        ⟨pre.length + leading.length, pre.length + leading.length + name.length⟩,
        ⟨pre.length + leading.length + name.length,
          pre.length + leading.length + name.length + suffix.length⟩⟩ := by
  obtain ⟨hp, he, hl, hls, ⟨hn, hnc⟩, ⟨hs, hss⟩, hr⟩ := h
  have hm := matchHere_eq leading name suffix rest hl hls hn hnc hs hss hr
  unfold regexec
  rw [show pre ++ leading ++ name ++ suffix ++ rest = pre ++ (leading ++ name ++ suffix ++ rest)
    by simp [List.append_assoc]]
  rw [regexecAt_append_of_noPlaceholder pre _ 0 hp he]
  cases hq : leading ++ name ++ suffix ++ rest with
  | nil =>
    cases leading with
    | nil => exact absurd rfl hl
    | cons a l => simp at hq
  | cons c cs =>
    rw [hq] at hm
    rw [regexecAt, hm]
    simp [Nat.add_assoc]


/-! ### One iteration of the loop -/

theorem substr_mid (a b c : Str) (p n : Nat) (hp : p = a.length) (hn : n = b.length) :
    substr (a ++ b ++ c) p n = b := by
  subst hp hn
  simp [substr, List.append_assoc]

theorem replace_mid (a b c r : Str) (p n : Nat) (hp : p = a.length) (hn : n = b.length) :
    replace (a ++ b ++ c) p n r = a ++ r ++ c := by
  subst hp hn
  have h1 : (a ++ b ++ c).take a.length = a := by simp [List.append_assoc]
  have h2 : (a ++ b ++ c).drop (a.length + b.length) = c := by
    rw [← List.length_append, List.drop_left]
  simp only [replace, h1, h2]

/-- The loop body at a state whose text after the cursor has its leftmost
placeholder after `pre`: the span of the placeholder is replaced by the
computed string, the text before it and after it is kept, and the cursor moves
just behind the inserted string. -/
theorem step_placeholder (sys : Sys) (done pre leading name suffix rest : Str)
    (calls : List Call) (h : Placeholder pre leading name suffix rest) :
    step sys ⟨done ++ (pre ++ leading ++ name ++ suffix ++ rest), done.length, calls⟩ =
      some ⟨done ++ (pre ++ replacement (lookup sys name).1 leading suffix ++ rest),
        done.length + pre.length + (replacement (lookup sys name).1 leading suffix).length,
        calls ++ (lookup sys name).2⟩ := by
  have hr := regexec_placeholder pre leading name suffix rest h
  have hv : substr (done ++ (pre ++ leading ++ name ++ suffix ++ rest))
      (done.length + (pre.length + leading.length))
      (pre.length + leading.length + name.length - (pre.length + leading.length)) = name := by
    rw [show done ++ (pre ++ leading ++ name ++ suffix ++ rest)
      = (done ++ pre ++ leading) ++ name ++ (suffix ++ rest) by simp [List.append_assoc]]
    exact substr_mid _ _ _ _ _ (by simp [Nat.add_assoc]) (by omega)
  have hl : substr (done ++ (pre ++ leading ++ name ++ suffix ++ rest))
      (done.length + pre.length) (pre.length + leading.length - pre.length) = leading := by
    rw [show done ++ (pre ++ leading ++ name ++ suffix ++ rest)
      = (done ++ pre) ++ leading ++ (name ++ suffix ++ rest) by simp [List.append_assoc]]
    exact substr_mid _ _ _ _ _ (by simp) (by omega)
  have hs : substr (done ++ (pre ++ leading ++ name ++ suffix ++ rest))
      (done.length + (pre.length + leading.length + name.length))
      (pre.length + leading.length + name.length + suffix.length
        - (pre.length + leading.length + name.length)) = suffix := by
    rw [show done ++ (pre ++ leading ++ name ++ suffix ++ rest)
      = (done ++ pre ++ leading ++ name) ++ suffix ++ rest by simp [List.append_assoc]]
    exact substr_mid _ _ _ _ _ (by simp [Nat.add_assoc]) (by omega)
  have hrep : ∀ r : Str, replace (done ++ (pre ++ leading ++ name ++ suffix ++ rest))
      (done.length + pre.length)
      (pre.length + leading.length + name.length + suffix.length - pre.length) r
      = done ++ (pre ++ r ++ rest) := by
    intro r
    rw [show done ++ (pre ++ leading ++ name ++ suffix ++ rest)
      = (done ++ pre) ++ (leading ++ name ++ suffix) ++ rest by simp [List.append_assoc]]
    rw [replace_mid _ _ _ r _ _ (by simp) (by simp; omega)]
    simp [List.append_assoc]
  unfold step
  simp only [List.drop_left, hr, hv, hl, hs, hrep]


/-! ### Every match is a placeholder -/

theorem head_dropWhile_false (q : Char → Bool) (l : Str) :
    ∀ x xs, l.dropWhile q = x :: xs → q x = false := by
  intro x xs h
  have := List.head_dropWhile_not q l (by rw [h]; simp)
  simpa [h] using this

theorem matchHere_some (s : Str) (a b d : Nat) (h : matchHere s = some (a, b, d)) :
    ∃ leading name suffix rest, s = leading ++ name ++ suffix ++ rest ∧
      Placeholder [] leading name suffix rest ∧
      a = leading.length ∧ b = name.length ∧ d = suffix.length := by
  unfold matchHere at h
  dsimp only at h
  cases hw : s.takeWhile isSpace with
  | nil => rw [hw] at h; simp at h
  | cons w ws =>
    cases hd : s.dropWhile isSpace with
    | nil => rw [hw, hd] at h; simp at h
    | cons c r =>
      rw [hw, hd] at h
      simp only at h
      cases hc : isNameStart c with
      | false => simp [hc] at h
      | true =>
        simp only [hc, if_true, Option.some.injEq, Prod.mk.injEq] at h
        obtain ⟨ha, hb, hdd⟩ := h
        refine ⟨w :: ws, c :: r.takeWhile isNameChar,
          (r.dropWhile isNameChar).takeWhile (fun x => !isSpace x),
          (r.dropWhile isNameChar).dropWhile (fun x => !isSpace x), ?_, ?_, ha.symm, hb.symm,
          hdd.symm⟩
        · have h1 := List.takeWhile_append_dropWhile isSpace s
          rw [hw, hd] at h1
          have h2 := List.takeWhile_append_dropWhile isNameChar r
          have h3 := List.takeWhile_append_dropWhile (fun x => !isSpace x)
            (r.dropWhile isNameChar)
          calc s = (w :: ws) ++ c :: r := h1.symm
            _ = (w :: ws) ++ c :: (r.takeWhile isNameChar ++ r.dropWhile isNameChar) := by
              rw [h2]
            _ = _ := by
              conv_lhs => rw [← h3]
              simp [List.append_assoc]
        · refine ⟨rfl, rfl, by simp, ?_, ⟨by simp [hc], ?_⟩, ⟨?_, ?_⟩, ?_⟩
          · rw [List.all_eq_true]
            intro x hx
            rw [← hw] at hx
            exact List.mem_takeWhile_imp hx
          · rw [List.all_eq_true]
            intro x hx
            rcases List.mem_cons.1 hx with rfl | hx
            · exact nameStart_nameChar hc
            · exact List.mem_takeWhile_imp hx
          · cases hX : r.dropWhile isNameChar with
            | nil => simp
            | cons x xs =>
              have hx := head_dropWhile_false isNameChar r x xs hX
              by_cases hq : isSpace x = true
              · simp [List.takeWhile, hq]
              · simp [List.takeWhile, hq, hx]
          · rw [List.all_eq_true]
            intro x hx
            exact List.mem_takeWhile_imp (p := fun x => !isSpace x) hx
          · cases hY : (r.dropWhile isNameChar).dropWhile (fun x => !isSpace x) with
            | nil => rfl
            | cons y ys =>
              have hy := head_dropWhile_false (fun x => !isSpace x) _ y ys hY
              simpa [startsSpaceOrEmpty] using hy

theorem matchHere_none_of_not_space (c : Char) (s : Str) (hc : isSpace c = false) :
    matchHere (c :: s) = none := by
  simp [matchHere, List.takeWhile, hc]

theorem matchHere_some_of_pair (c d : Char) (r : Str) (hc : isSpace c = true)
    (hd : isNameStart d = true) : matchHere (c :: d :: r) ≠ none := by
  have hds := nameStart_not_space hd
  simp [matchHere, List.takeWhile, List.dropWhile, hc, hds, hd]

/-- A text that holds a placeholder splits at its leftmost placeholder. -/
theorem exists_placeholder (t : Str) (h : hasPlaceholder t = true) :
    ∃ pre leading name suffix rest,
      t = pre ++ leading ++ name ++ suffix ++ rest ∧ Placeholder pre leading name suffix rest := by
  induction t with
  | nil => simp [hasPlaceholder] at h
  | cons c s ih =>
    cases hm : matchHere (c :: s) with
    | some v =>
      obtain ⟨a, b, d⟩ := v
      obtain ⟨l, n, sf, rest, heq, hp, -, -, -⟩ := matchHere_some _ a b d hm
      exact ⟨[], l, n, sf, rest, by simpa using heq, hp⟩
    | none =>
      have hs : hasPlaceholder s = true := by
        cases s with
        | nil => simp [hasPlaceholder] at h
        | cons d r =>
          simp only [hasPlaceholder, Bool.or_eq_true, Bool.and_eq_true] at h
          rcases h with ⟨h1, h2⟩ | h
          · exact absurd hm (matchHere_some_of_pair c d r h1 h2)
          · exact h
      obtain ⟨pre, l, n, sf, rest, heq, hp⟩ := ih hs
      refine ⟨c :: pre, l, n, sf, rest, by simp [heq], ?_⟩
      obtain ⟨hp1, hp2, hl, hls, ⟨hn, hnc⟩, ⟨hsf, hss⟩, hr⟩ := hp
      refine ⟨?_, ?_, hl, hls, ⟨hn, hnc⟩, ⟨hsf, hss⟩, hr⟩
      · cases pre with
        | nil => rfl
        | cons e p =>
          simp only [hasPlaceholder, hp1, Bool.or_false, Bool.and_eq_false_imp]
          intro hc
          cases he : isNameStart e with
          | false => rfl
          | true =>
            rw [heq] at hm
            exact absurd hm (matchHere_some_of_pair c e _ hc he)
      · cases pre with
        | nil =>
          cases hc : isSpace c with
          | false => simp [endsNonSpace, hc]
          | true =>
            have := matchHere_eq (c :: l) n sf rest (by simp)
              (by simpa [hc] using hls) hn hnc hsf hss hr
            rw [heq] at hm
            rw [show c :: ([] ++ l ++ n ++ sf ++ rest) = c :: l ++ n ++ sf ++ rest by simp] at hm
            rw [hm] at this; cases this
        | cons e p => simpa [endsNonSpace, List.getLast?_cons_cons] using hp2

theorem regexecAt_none_of_noPlaceholder (t : Str) (off : Nat) (h : hasPlaceholder t = false) :
    regexecAt t off = none := by
  induction t generalizing off with
  | nil => rfl
  | cons c s ih =>
    have hm : matchHere (c :: s) = none := by
      cases hc : isSpace c with
      | false => exact matchHere_none_of_not_space c s hc
      | true =>
        cases hmm : matchHere (c :: s) with
        | none => rfl
        | some v =>
          obtain ⟨a, b, d⟩ := v
          obtain ⟨l, n, sf, rest, heq, hp, -, -, -⟩ := matchHere_some _ a b d hmm
          exfalso
          obtain ⟨-, -, hl, hls, ⟨hn, -⟩, -, -⟩ := hp
          have hdw : (c :: s).dropWhile isSpace = n ++ sf ++ rest := by
            rw [heq, List.append_assoc, List.append_assoc, List.dropWhile_append_of_pos
              (by simpa [List.all_eq_true] using hls)]
            cases n with
            | nil => simp at hn
            | cons n0 ns =>
              have : isSpace n0 = false := nameStart_not_space (by simpa using hn)
              simp [List.dropWhile, this]
          cases n with
          | nil => simp at hn
          | cons n0 ns =>
            have h1 := dropWhile_head_of_noPlaceholder s c hc h n0 (ns ++ sf ++ rest)
              (by simpa using hdw)
            have h2 : isNameStart n0 = true := by simpa using hn
            rw [h1] at h2; cases h2
    rw [regexecAt, hm]
    exact ih (off + 1) (hasPlaceholder_tail h)

theorem regexec_none_of_noPlaceholder (t : Str) (h : hasPlaceholder t = false) :
    regexec t = none := regexecAt_none_of_noPlaceholder t 0 h

/-! ### The loop -/

theorem step_none_of_noPlaceholder (sys : Sys) (st : State)
    (h : hasPlaceholder (st.script.drop st.pos) = false) : step sys st = none := by
  unfold step
  rw [regexec_none_of_noPlaceholder _ h]

/-- The loop body sees only the text after the cursor. -/
theorem step_shift (sys : Sys) (done : Str) (calls : List Call) (st : State) :
    step sys (shift done calls st) = (step sys st).map (shift done calls) := by
  have hd : (done ++ st.script).drop (done.length + st.pos) = st.script.drop st.pos := by
    rw [← List.drop_drop, List.drop_left]
  have hsub : ∀ p n, substr (done ++ st.script) (done.length + st.pos + p) n
      = substr st.script (st.pos + p) n := by
    intro p n
    unfold substr
    rw [Nat.add_assoc, ← List.drop_drop, List.drop_left]
  have hrep : ∀ p n r, replace (done ++ st.script) (done.length + st.pos + p) n r
      = done ++ replace st.script (st.pos + p) n r := by
    intro p n r
    unfold replace
    simp only [Nat.add_assoc, List.take_append, List.drop_append, List.append_assoc]
  unfold step shift
  simp only [hd]
  cases regexec (st.script.drop st.pos) with
  | none => rfl
  | some rm =>
    simp only [hsub, hrep, Option.map_some', Option.some.injEq, State.mk.injEq,
      List.append_assoc, true_and]
    exact ⟨by omega, trivial⟩

theorem loop_shift (sys : Sys) (done : Str) (calls : List Call) (fuel : Nat) (st : State) :
    loop sys fuel (shift done calls st) = (loop sys fuel st).map (shift done calls) := by
  induction fuel generalizing st with
  | zero => rfl
  | succ n ih =>
    unfold loop
    rw [step_shift]
    cases step sys st with
    | none => rfl
    | some st' => simpa using ih st'

/-- Every iteration of the loop leaves fewer characters after the cursor. -/
theorem step_remaining (sys : Sys) (st st' : State) (h : step sys st = some st') :
    remaining st' < remaining st := by
  have hpos : hasPlaceholder (st.script.drop st.pos) = true := by
    cases hh : hasPlaceholder (st.script.drop st.pos) with
    | true => rfl
    | false => rw [step_none_of_noPlaceholder sys st hh] at h; cases h
  obtain ⟨pre, l, n, sf, rest, heq, hp⟩ := exists_placeholder _ hpos
  have hle : st.pos ≤ st.script.length := by
    by_contra hc
    have : st.script.drop st.pos = [] := List.drop_eq_nil_of_le (by omega)
    rw [this] at hpos; simp [hasPlaceholder] at hpos
  have hst : st = ⟨st.script.take st.pos ++ (pre ++ l ++ n ++ sf ++ rest),
      (st.script.take st.pos).length, st.calls⟩ := by
    cases st with
    | mk script pos calls =>
      simp only [State.mk.injEq, and_true]
      simp only at heq hle
      exact ⟨by rw [← heq, List.take_append_drop], by simp [hle]⟩
  rw [hst, step_placeholder sys _ pre l n sf rest _ hp] at h
  injection h with h
  rw [hst, ← h]
  have hl : 0 < l.length := List.length_pos.2 hp.2.2.1
  simp only [remaining, List.length_append]
  omega

/-- The loop ends: one evaluation of the condition more than there are
characters after the cursor is enough fuel. -/
theorem loop_terminates (sys : Sys) (fuel : Nat) (st : State) (h : remaining st < fuel) :
    ∃ r, loop sys fuel st = some r := by
  induction fuel generalizing st with
  | zero => omega
  | succ n ih =>
    unfold loop
    cases hs : step sys st with
    | none => exact ⟨st, rfl⟩
    | some st' =>
      have := step_remaining sys st st' hs
      exact ih st' (by omega)

/-- More fuel does not change a result. -/
theorem loop_mono (sys : Sys) (fuel k : Nat) (st r : State) (h : loop sys fuel st = some r) :
    loop sys (fuel + k) st = some r := by
  induction fuel generalizing st with
  | zero => simp [loop] at h
  | succ n ih =>
    rw [show n + 1 + k = (n + k) + 1 by omega]
    unfold loop at h ⊢
    cases hs : step sys st with
    | none => rw [hs] at h; exact h
    | some st' => rw [hs] at h; exact ih st' h

theorem loop_eq_runFrom (sys : Sys) (fuel : Nat) (st : State) (h : remaining st < fuel) :
    loop sys fuel st = runFrom sys st := by
  obtain ⟨r, hr⟩ := loop_terminates sys (remaining st + 1) st (by omega)
  have := loop_mono sys (remaining st + 1) (fuel - (remaining st + 1)) st r hr
  rw [show remaining st + 1 + (fuel - (remaining st + 1)) = fuel by omega] at this
  rw [this]
  exact hr.symm

theorem runFrom_terminates (sys : Sys) (st : State) : ∃ r, runFrom sys st = some r :=
  loop_terminates sys _ st (by unfold remaining; omega)

theorem runFrom_shift (sys : Sys) (done : Str) (calls : List Call) (st : State) :
    runFrom sys (shift done calls st) = (runFrom sys st).map (shift done calls) := by
  have h1 : remaining (shift done calls st) = remaining st := by
    simp [remaining, shift]; omega
  unfold runFrom
  rw [show (shift done calls st).script.length - (shift done calls st).pos = remaining st
    from h1]
  exact loop_shift sys done calls _ st

theorem runFrom_of_step_none (sys : Sys) (st : State) (h : step sys st = none) :
    runFrom sys st = some st := by
  unfold runFrom loop
  rw [h]

theorem runFrom_of_step_some (sys : Sys) (st st' : State) (h : step sys st = some st') :
    runFrom sys st = runFrom sys st' := by
  have hr := step_remaining sys st st' h
  unfold runFrom
  rw [show st.script.length - st.pos + 1 = (remaining st) + 1 from rfl]
  unfold loop
  rw [h]
  exact loop_eq_runFrom sys _ st' hr

/-! ### The whole run -/

/-- The final state on a script whose leftmost placeholder follows `pre`: the
prefix and the computed replacement, then the run on the text after the
placeholder. -/
theorem lightReset_placeholder (sys : Sys) (pre leading name suffix rest : Str)
    (h : Placeholder pre leading name suffix rest) :
    lightReset sys (pre ++ leading ++ name ++ suffix ++ rest) =
      (lightReset sys rest).map
        (shift (pre ++ replacement (lookup sys name).1 leading suffix) (lookup sys name).2) := by
  have hs := step_placeholder sys [] pre leading name suffix rest [] h
  simp only [List.nil_append, List.length_nil, Nat.zero_add] at hs
  unfold lightReset
  rw [runFrom_of_step_some sys _ _ hs]
  have hsh : (⟨pre ++ replacement (lookup sys name).1 leading suffix ++ rest,
      pre.length + (replacement (lookup sys name).1 leading suffix).length,
      (lookup sys name).2⟩ : State)
      = shift (pre ++ replacement (lookup sys name).1 leading suffix) (lookup sys name).2
          ⟨rest, 0, []⟩ := by
    simp [shift]
  rw [hsh, runFrom_shift]

theorem resolve_placeholder (sys : Sys) (pre leading name suffix rest : Str)
    (h : Placeholder pre leading name suffix rest) :
    resolve sys (pre ++ leading ++ name ++ suffix ++ rest) =
      (resolve sys rest).map
        (fun out => pre ++ replacement (lookup sys name).1 leading suffix ++ out) := by
  unfold resolve
  rw [lightReset_placeholder sys pre leading name suffix rest h]
  cases lightReset sys rest with
  | none => rfl
  | some st => simp [shift]

theorem resolve_terminates (sys : Sys) (t : Str) : ∃ out, resolve sys t = some out := by
  obtain ⟨r, hr⟩ := runFrom_terminates sys ⟨t, 0, []⟩
  exact ⟨r.script, by simp [resolve, lightReset, hr]⟩

theorem lightReset_of_noPlaceholder (sys : Sys) (t : Str) (h : hasPlaceholder t = false) :
    lightReset sys t = some ⟨t, 0, []⟩ :=
  runFrom_of_step_none sys _ (step_none_of_noPlaceholder sys _ (by simpa using h))

/-! ### The replacement string -/

/-- The index that `find_first_not_of('/')` returns is that of the first
character behind the leading slashes. -/
theorem find_first_not_of_slash (s : Str) :
    match find_first_not_of s ['/'] with
    | some nr => s.get? nr = (s.dropWhile (fun x => x == '/')).head? ∧
        (s.dropWhile (fun x => x == '/')) ≠ []
    | none => s.dropWhile (fun x => x == '/') = [] := by
  induction s with
  | nil => simp [find_first_not_of]
  | cons c cs ih =>
    by_cases hc : c = '/'
    · subst hc
      cases hf : find_first_not_of cs ['/'] with
      | none =>
        rw [hf] at ih
        simpa [find_first_not_of, hf, List.dropWhile] using ih
      | some nr =>
        rw [hf] at ih
        simpa [find_first_not_of, hf, List.dropWhile] using ih
    · have hb : (c == '/') = false := by simpa using hc
      simp [find_first_not_of, List.dropWhile, hc, hb]

theorem replacement_keep (leading suffix value : Str) (hv : value ≠ [])
    (hc : (value ++ suffix).head? ≠ some '/' ∨
      ∃ c, ((value ++ suffix).dropWhile (fun x => x == '/')).head? = some c ∧ c ≠ '*') :
    replacement (some value) leading suffix = leading ++ value ++ suffix := by
  obtain ⟨e, es, rfl⟩ : ∃ e es, value = e :: es := by
    cases value with
    | nil => exact absurd rfl hv
    | cons a l => exact ⟨a, l, rfl⟩
  unfold replacement
  simp only [List.cons_append, List.length_cons, gt_iff_lt, Nat.zero_lt_succ, if_true]
  by_cases hs : (e :: (es ++ suffix)).head? = some '/'
  · rw [if_pos hs]
    rcases hc with hc | ⟨c, hc1, hc2⟩
    · exact absurd hs (by simpa using hc)
    · have hf := find_first_not_of_slash (e :: (es ++ suffix))
      cases hfn : find_first_not_of (e :: (es ++ suffix)) ['/'] with
      | none =>
        rw [hfn] at hf
        simp only [List.cons_append] at hc1
        rw [hf] at hc1; simp at hc1
      | some nr =>
        rw [hfn] at hf
        simp only [List.cons_append] at hc1
        simp only [hf.1, hc1]
        rw [if_pos (by simpa using hc2)]
        simp [List.append_assoc]
  · rw [if_neg hs]
    simp [List.append_assoc]

theorem replacement_rootWildcard (leading suffix value : Str) (hv : value ≠ [])
    (hc : value ++ suffix = ['/', '*']) : replacement (some value) leading suffix = [] := by
  obtain ⟨e, es, rfl⟩ : ∃ e es, value = e :: es := by
    cases value with
    | nil => exact absurd rfl hv
    | cons a l => exact ⟨a, l, rfl⟩
  unfold replacement
  simp only [hc]
  have hf : find_first_not_of ['/', '*'] ['/'] = some 1 := by decide
  simp [hf]

theorem replacement_empty (envVar : Option Str) (leading suffix : Str)
    (h : envVar = none ∨ envVar = some []) : replacement envVar leading suffix = [] := by
  rcases h with rfl | rfl <;> rfl

theorem hasPlaceholder_iff (t : Str) :
    hasPlaceholder t = true ↔
      ∃ a c d b, t = a ++ c :: d :: b ∧ isSpace c = true ∧ isNameStart d = true := by
  induction t with
  | nil => simp [hasPlaceholder]
  | cons x xs ih =>
    cases xs with
    | nil =>
      simp only [hasPlaceholder, Bool.false_eq_true, false_iff, not_exists]
      intro a c d b h
      have := congrArg List.length h.1
      simp at this
      omega
    | cons y ys =>
      simp only [hasPlaceholder, Bool.or_eq_true, Bool.and_eq_true]
      constructor
      · rintro (⟨h1, h2⟩ | h)
        · exact ⟨[], x, y, ys, rfl, h1, h2⟩
        · obtain ⟨a, c, d, b, heq, h1, h2⟩ := ih.1 h
          exact ⟨x :: a, c, d, b, by simp [heq], h1, h2⟩
      · rintro ⟨a, c, d, b, heq, h1, h2⟩
        cases a with
        | nil =>
          simp only [List.nil_append, List.cons.injEq] at heq
          obtain ⟨rfl, rfl, -⟩ := heq
          exact Or.inl ⟨h1, h2⟩
        | cons a0 as =>
          simp only [List.cons_append, List.cons.injEq] at heq
          exact Or.inr (ih.2 ⟨as, c, d, b, heq.2, h1, h2⟩)

theorem hasPlaceholder_append (pre rest : Str) (hp : hasPlaceholder pre = false)
    (he : endsNonSpace pre = true) (hr : hasPlaceholder rest = false) :
    hasPlaceholder (pre ++ rest) = false := by
  induction pre with
  | nil => simpa using hr
  | cons c p ih =>
    cases p with
    | nil =>
      have hc : isSpace c = false := by simpa [endsNonSpace] using he
      cases rest with
      | nil => rfl
      | cons d r => simp [hasPlaceholder, hc, hr]
    | cons d q =>
      have h1 : hasPlaceholder (d :: q) = false := hasPlaceholder_tail hp
      have h2 := ih h1 (endsNonSpace_tail he)
      simp only [hasPlaceholder, Bool.or_eq_false_iff] at hp
      simp only [List.cons_append, hasPlaceholder, Bool.or_eq_false_iff]
      exact ⟨hp.1, by simpa using h2⟩

/-- C1: at every state of the loop whose text after the cursor has its
leftmost placeholder (white-space run, name `[A-Z_][0-9A-Z_]*`, maximal suffix
without white space) after `pre`, when the value found for the name is not
empty and the candidate `value ++ suffix` either does not start with `/` or
has a first character other than `/` that is not `*`, the loop body replaces
the span of the placeholder by `leading ++ value ++ suffix`, keeps the text
before and after it, and puts the cursor behind the inserted text; the script
that `lightReset` produces for such a template is `pre`, then
`leading ++ value ++ suffix`, then the resolved rest.  The template
`rm -rf FOO/*` with `FOO=/data` gives `rm -rf /data/*`. -/
theorem C1_placeholder_replaced_by_value (sys : Sys)
    (done pre leading name suffix rest value : Str) (calls : List Call)
    (hp : Placeholder pre leading name suffix rest)
    (hv : (lookup sys name).1 = some value) (hne : value ≠ [])
    (hc : (value ++ suffix).head? ≠ some '/' ∨
      ∃ c, ((value ++ suffix).dropWhile (fun x => x == '/')).head? = some c ∧ c ≠ '*') :
    step sys ⟨done ++ (pre ++ leading ++ name ++ suffix ++ rest), done.length, calls⟩ =
        some ⟨done ++ (pre ++ (leading ++ value ++ suffix) ++ rest),
          done.length + pre.length + (leading ++ value ++ suffix).length,
          calls ++ (lookup sys name).2⟩ ∧
      (∃ out, resolve sys rest = some out ∧
        resolve sys (pre ++ leading ++ name ++ suffix ++ rest) =
          some (pre ++ (leading ++ value ++ suffix) ++ out)) ∧
      resolve envFoo "rm -rf FOO/*".toList = some "rm -rf /data/*".toList := by
  have hrep := replacement_keep leading suffix value hne hc
  refine ⟨?_, ?_, by decide⟩
  · have := step_placeholder sys done pre leading name suffix rest calls hp
    rw [hv, hrep] at this
    exact this
  · obtain ⟨out, ho⟩ := resolve_terminates sys rest
    refine ⟨out, ho, ?_⟩
    rw [resolve_placeholder sys pre leading name suffix rest hp, hv, hrep, ho]
    rfl

/-- C1 at the template `rm -rf FOO/*` with `FOO=/data`. -/
theorem C1_placeholder_replaced_by_value_witness :
    Placeholder "rm -rf".toList " ".toList "FOO".toList "/*".toList [] ∧
      (lookup envFoo "FOO".toList).1 = some "/data".toList ∧
      step envFoo ⟨"rm -rf FOO/*".toList, 0, []⟩ =
        some ⟨"rm -rf /data/*".toList, 14, [Call.getenv "FOO".toList]⟩ :=
  ⟨by decide, by decide,
    (C1_placeholder_replaced_by_value envFoo [] "rm -rf".toList " ".toList "FOO".toList
      "/*".toList [] "/data".toList [] (by decide) (by decide) (by decide)
      (Or.inr ⟨'d', by decide, by decide⟩)).1⟩

theorem replacement_rootWildcard_getD (envVar : Option Str) (leading suffix : Str)
    (hc : envVar.getD [] ++ suffix = ['/', '*']) : replacement envVar leading suffix = [] := by
  cases envVar with
  | none => rfl
  | some v =>
    cases v with
    | nil => rfl
    | cons e es => exact replacement_rootWildcard leading suffix (e :: es) (by simp) hc

theorem find_first_not_of_none (s set : Str) (h : ∀ c ∈ s, c ∈ set) :
    find_first_not_of s set = none := by
  induction s with
  | nil => rfl
  | cons c cs ih =>
    have hm : c ∈ set := h c (by simp)
    simp [find_first_not_of, hm, ih (fun x hx => h x (by simp [hx]))]

theorem eraseAround_blank (out : Str) (h : ∀ c ∈ out, c ∈ " \n\r\t".toList) :
    eraseAround out = [] := by
  unfold eraseAround
  simp only [find_first_not_of_none out _ h]
  rfl

/-- The value found for a variable that is unset or empty and for which the
shell gives nothing. -/
theorem lookup_empty (sys : Sys) (name : Str)
    (henv : sys.getenv name = none ∨ sys.getenv name = some [])
    (hsh : name = SD_CARD_MOUNT_PATH → sys.popen MOUNT_PATH_COMMAND = none ∨
      ∃ out, sys.popen MOUNT_PATH_COMMAND = some out ∧ ∀ c ∈ out, c ∈ " \n\r\t".toList) :
    (lookup sys name).1 = none ∨ (lookup sys name).1 = some [] := by
  unfold lookup
  dsimp only
  by_cases hn : SD_CARD_MOUNT_PATH = name
  · rw [if_pos ⟨hn, henv⟩]
    rcases hsh hn.symm with hp | ⟨out, hp, hb⟩
    · rw [hp]; exact henv
    · rw [hp]
      exact Or.inr (by simp only [eraseAround_blank out hb])
  · rw [if_neg (fun h => hn h.1)]
    exact henv

/-- C2: at every state of the loop whose text after the cursor has its
leftmost placeholder after `pre`, when the candidate (the value found for the
name, followed by the suffix) is `/*`, the loop body replaces the whole span
of the placeholder, leading white space included, by the empty string, and
the script that `lightReset` produces is `pre` followed by the resolved rest;
when the template holds no other placeholder, `lightReset` turns it into
`pre ++ rest` and a second run on that output returns it unchanged. -/
theorem C2_root_wildcard_removed (sys : Sys)
    (done pre leading name suffix rest : Str) (calls : List Call)
    (hp : Placeholder pre leading name suffix rest)
    (hc : (lookup sys name).1.getD [] ++ suffix = "/*".toList) :
    step sys ⟨done ++ (pre ++ leading ++ name ++ suffix ++ rest), done.length, calls⟩ =
        some ⟨done ++ (pre ++ rest), done.length + pre.length, calls ++ (lookup sys name).2⟩ ∧
      (∃ out, resolve sys rest = some out ∧
        resolve sys (pre ++ leading ++ name ++ suffix ++ rest) = some (pre ++ out)) ∧
      (hasPlaceholder rest = false →
        resolve sys (pre ++ leading ++ name ++ suffix ++ rest) = some (pre ++ rest) ∧
        resolve sys (pre ++ rest) = some (pre ++ rest)) := by
  have hrep := replacement_rootWildcard_getD (lookup sys name).1 leading suffix hc
  refine ⟨?_, ?_, ?_⟩
  · have := step_placeholder sys done pre leading name suffix rest calls hp
    rw [hrep] at this
    simpa using this
  · obtain ⟨out, ho⟩ := resolve_terminates sys rest
    refine ⟨out, ho, ?_⟩
    rw [resolve_placeholder sys pre leading name suffix rest hp, hrep, ho]
    simp
  · intro hr
    have h1 : resolve sys rest = some rest := by
      simp [resolve, lightReset_of_noPlaceholder sys rest hr]
    have h2 : hasPlaceholder (pre ++ rest) = false :=
      hasPlaceholder_append pre rest hp.1 hp.2.1 hr
    refine ⟨?_, ?_⟩
    · rw [resolve_placeholder sys pre leading name suffix rest hp, hrep, h1]
      simp
    · simp [resolve, lightReset_of_noPlaceholder sys _ h2]

/-- C2 at the template `rm -rf ROOT* /opt/x` with `ROOT=/`. -/
theorem C2_root_wildcard_removed_witness :
    Placeholder "rm -rf".toList " ".toList "ROOT".toList "*".toList " /opt/x".toList ∧
      (lookup envRoot "ROOT".toList).1.getD [] ++ "*".toList = "/*".toList ∧
      resolve envRoot "rm -rf ROOT* /opt/x".toList = some "rm -rf /opt/x".toList ∧
      resolve envRoot "rm -rf /opt/x".toList = some "rm -rf /opt/x".toList :=
  ⟨by decide, by decide,
    (C2_root_wildcard_removed envRoot [] "rm -rf".toList " ".toList "ROOT".toList
      "*".toList " /opt/x".toList [] (by decide) (by decide)).2.2 (by decide)⟩

/-- C3: at every state of the loop whose text after the cursor has its
leftmost placeholder after `pre`, when the variable is unset or empty in the
environment (and, for `SD_CARD_MOUNT_PATH`, the pipe cannot be opened or
writes nothing but blanks), the loop body deletes the whole span of the
placeholder (leading white space, name and suffix), so that `pre` and `rest`
become adjacent; the script that `lightReset` produces is `pre` followed by the
resolved rest.  The template `rm -rf FOO/* /opt/x` with `FOO` unset gives
`rm -rf /opt/x`. -/
theorem C3_unset_placeholder_deleted (sys : Sys)
    (done pre leading name suffix rest : Str) (calls : List Call)
    (hp : Placeholder pre leading name suffix rest)
    (henv : sys.getenv name = none ∨ sys.getenv name = some [])
    (hsh : name = SD_CARD_MOUNT_PATH → sys.popen MOUNT_PATH_COMMAND = none ∨
      ∃ out, sys.popen MOUNT_PATH_COMMAND = some out ∧ ∀ c ∈ out, c ∈ " \n\r\t".toList) :
    step sys ⟨done ++ (pre ++ leading ++ name ++ suffix ++ rest), done.length, calls⟩ =
        some ⟨done ++ (pre ++ rest), done.length + pre.length, calls ++ (lookup sys name).2⟩ ∧
      (∃ out, resolve sys rest = some out ∧
        resolve sys (pre ++ leading ++ name ++ suffix ++ rest) = some (pre ++ out)) ∧
      resolve envNone "rm -rf FOO/* /opt/x".toList = some "rm -rf /opt/x".toList := by
  have hrep := replacement_empty (lookup sys name).1 leading suffix
    (lookup_empty sys name henv hsh)
  refine ⟨?_, ?_, by decide⟩
  · have := step_placeholder sys done pre leading name suffix rest calls hp
    rw [hrep] at this
    simpa using this
  · obtain ⟨out, ho⟩ := resolve_terminates sys rest
    refine ⟨out, ho, ?_⟩
    rw [resolve_placeholder sys pre leading name suffix rest hp, hrep, ho]
    simp

/-- C3 at the template `rm -rf FOO/* /opt/x` with `FOO` unset. -/
theorem C3_unset_placeholder_deleted_witness :
    Placeholder "rm -rf".toList " ".toList "FOO".toList "/*".toList " /opt/x".toList ∧
      envNone.getenv "FOO".toList = none ∧
      step envNone ⟨"rm -rf FOO/* /opt/x".toList, 0, []⟩ =
        some ⟨"rm -rf /opt/x".toList, 6, [Call.getenv "FOO".toList]⟩ :=
  ⟨by decide, rfl,
    (C3_unset_placeholder_deleted envNone [] "rm -rf".toList " ".toList "FOO".toList
      "/*".toList " /opt/x".toList [] (by decide) (Or.inl rfl)
      (fun h => absurd h (by decide))).1⟩

/-- C4: for every template that holds no placeholder (no white-space character
immediately followed by a character of `[A-Z_]`), `lightReset` ends at once with
the template unchanged, the cursor at 0 and an empty log of calls: neither
`getenv` nor `popen` is called. -/
theorem C4_no_placeholder_unchanged (sys : Sys) (template : Str)
    (h : ¬ ∃ a c d b, template = a ++ c :: d :: b ∧ isSpace c = true ∧ isNameStart d = true) :
    lightReset sys template = some ⟨template, 0, []⟩ ∧
      resolve sys template = some template := by
  have hh : hasPlaceholder template = false := by
    cases hq : hasPlaceholder template with
    | false => rfl
    | true => exact absurd ((hasPlaceholder_iff template).1 hq) h
  have := lightReset_of_noPlaceholder sys template hh
  exact ⟨this, by simp [resolve, this]⟩

/-- C4 at the template `rm -rf /opt/drm`. -/
theorem C4_no_placeholder_unchanged_witness :
    hasPlaceholder "rm -rf /opt/drm".toList = false ∧
      lightReset envFoo "rm -rf /opt/drm".toList = some ⟨"rm -rf /opt/drm".toList, 0, []⟩ :=
  ⟨by decide,
    (C4_no_placeholder_unchanged envFoo "rm -rf /opt/drm".toList
      (fun hex => absurd ((hasPlaceholder_iff _).2 hex) (by decide))).1⟩

/-! ### The shell fallback -/

theorem contains_blank (c : Char) : (" \n\r\t".toList).contains c = isBlank c := by
  show List.elem c [' ', '\n', '\r', '\t'] = _
  unfold isBlank
  cases h1 : c == ' ' <;> cases h2 : c == '\n' <;> cases h3 : c == '\r' <;>
    cases h4 : c == '\t' <;> simp [List.elem, h1, h2, h3, h4]

theorem find_first_not_of_drop (s set : Str) :
    match find_first_not_of s set with
    | some i => s.drop i = s.dropWhile set.contains
    | none => s.dropWhile set.contains = [] := by
  induction s with
  | nil => simp [find_first_not_of]
  | cons c cs ih =>
    by_cases hm : c ∈ set
    · cases hf : find_first_not_of cs set with
      | none => rw [hf] at ih; simpa [find_first_not_of, hm, hf, List.dropWhile] using ih
      | some i => rw [hf] at ih; simpa [find_first_not_of, hm, hf, List.dropWhile] using ih
    · simp [find_first_not_of, hm, List.dropWhile]

theorem rdropWhile_cons (q : Char → Bool) (c : Char) (cs : Str) :
    (c :: cs).rdropWhile q =
      if cs.rdropWhile q = [] then (if q c then [] else [c]) else c :: cs.rdropWhile q := by
  unfold List.rdropWhile
  rw [List.reverse_cons, List.dropWhile_append]
  by_cases h : List.dropWhile q cs.reverse = []
  · by_cases hq : q c = true <;> simp [h, hq, List.dropWhile]
  · have h' : (List.dropWhile q cs.reverse).isEmpty = false := by
      cases hd : List.dropWhile q cs.reverse with
      | nil => exact absurd hd h
      | cons a l => rfl
    simp [h, h']

theorem find_last_not_of_take (s set : Str) :
    match find_last_not_of s set with
    | some j => s.take (j + 1) = s.rdropWhile set.contains ∧ s.rdropWhile set.contains ≠ []
    | none => s.rdropWhile set.contains = [] := by
  induction s with
  | nil => simp [find_last_not_of]
  | cons c cs ih =>
    rw [rdropWhile_cons]
    cases hf : find_last_not_of cs set with
    | some i =>
      rw [hf] at ih
      simp only [find_last_not_of, hf, List.take_succ_cons, ih.1, if_neg ih.2]
      exact ⟨trivial, by simp⟩
    | none =>
      rw [hf] at ih
      simp only [find_last_not_of, hf, ih, if_true]
      cases hc : set.contains c with
      | true => simp [hc]
      | false => simp [hc]

/-- The two `erase` calls remove the leading and the trailing blanks. -/
theorem eraseAround_eq_trimBlanks (out : Str) : eraseAround out = trimBlanks out := by
  have hfun : (" \n\r\t".toList).contains = isBlank := funext contains_blank
  unfold eraseAround trimBlanks
  dsimp only
  have h1 := find_first_not_of_drop out " \n\r\t".toList
  rw [hfun] at h1
  cases hf : find_first_not_of out " \n\r\t".toList with
  | none =>
    rw [hf] at h1
    simp only [h1]
    rfl
  | some i =>
    rw [hf] at h1
    simp only [h1]
    have h2 := find_last_not_of_take (out.dropWhile isBlank) " \n\r\t".toList
    rw [hfun] at h2
    cases hl : find_last_not_of (out.dropWhile isBlank) " \n\r\t".toList with
    | none => rw [hl] at h2; simp only [h2]
    | some j => rw [hl] at h2; simp only [h2.1]

theorem lookup_env (sys : Sys) (var v : Str) (h : sys.getenv var = some v) (hv : v ≠ []) :
    lookup sys var = (some v, [Call.getenv var]) := by
  unfold lookup
  dsimp only
  rw [if_neg, h]
  rintro ⟨-, h1 | h1⟩
  · rw [h] at h1; cases h1
  · rw [h] at h1; injection h1 with h1; exact hv h1

theorem lookup_fallback (sys : Sys) (out : Str)
    (henv : sys.getenv SD_CARD_MOUNT_PATH = none ∨ sys.getenv SD_CARD_MOUNT_PATH = some [])
    (hsh : sys.popen MOUNT_PATH_COMMAND = some out) :
    lookup sys SD_CARD_MOUNT_PATH = (some (trimBlanks out),
      [Call.getenv SD_CARD_MOUNT_PATH, Call.popen MOUNT_PATH_COMMAND]) := by
  unfold lookup
  dsimp only
  rw [if_pos ⟨rfl, henv⟩, hsh]
  simp only [eraseAround_eq_trimBlanks]

theorem popen_mem_lookup (sys : Sys) (var : Str) :
    Call.popen MOUNT_PATH_COMMAND ∈ (lookup sys var).2 ↔
      (var = SD_CARD_MOUNT_PATH ∧ (sys.getenv var = none ∨ sys.getenv var = some [])) := by
  unfold lookup
  dsimp only
  by_cases hc : SD_CARD_MOUNT_PATH = var ∧ (sys.getenv var = none ∨ sys.getenv var = some [])
  · rw [if_pos hc]
    have hc' : var = SD_CARD_MOUNT_PATH ∧ (sys.getenv var = none ∨ sys.getenv var = some []) :=
      ⟨hc.1.symm, hc.2⟩
    cases sys.popen MOUNT_PATH_COMMAND <;> exact ⟨fun _ => hc', fun _ => by simp⟩
  · rw [if_neg hc]
    have hc' : ¬ (var = SD_CARD_MOUNT_PATH ∧
        (sys.getenv var = none ∨ sys.getenv var = some [])) :=
      fun h => hc ⟨h.1.symm, h.2⟩
    simp [hc']

/-- C5: the value used for a placeholder is the value of the environment when
that is not empty (and then only `getenv` is called); the mount table command
is run exactly when the name is `SD_CARD_MOUNT_PATH` and the environment value
is unset or empty, and the value is then what the command wrote, with leading
and trailing space, tab, CR and LF removed.  For a placeholder
`SD_CARD_MOUNT_PATH/*` with an unset or empty environment value and a command
that writes `/mnt/sdcard`, with or without a final line feed, the loop body
replaces the placeholder by its leading white space and `/mnt/sdcard/*`. -/
theorem C5_value_from_env_or_mount_table :
    (∀ (sys : Sys) (var v : Str), sys.getenv var = some v → v ≠ [] →
      lookup sys var = (some v, [Call.getenv var])) ∧
    (∀ (sys : Sys) (var : Str), Call.popen MOUNT_PATH_COMMAND ∈ (lookup sys var).2 ↔
      (var = SD_CARD_MOUNT_PATH ∧ (sys.getenv var = none ∨ sys.getenv var = some []))) ∧
    (∀ (sys : Sys) (out : Str),
      (sys.getenv SD_CARD_MOUNT_PATH = none ∨ sys.getenv SD_CARD_MOUNT_PATH = some []) →
      sys.popen MOUNT_PATH_COMMAND = some out →
      lookup sys SD_CARD_MOUNT_PATH = (some (trimBlanks out),
        [Call.getenv SD_CARD_MOUNT_PATH, Call.popen MOUNT_PATH_COMMAND])) ∧
    (∀ (sys : Sys) (done pre leading rest out : Str) (calls : List Call),
      Placeholder pre leading SD_CARD_MOUNT_PATH "/*".toList rest →
      (sys.getenv SD_CARD_MOUNT_PATH = none ∨ sys.getenv SD_CARD_MOUNT_PATH = some []) →
      sys.popen MOUNT_PATH_COMMAND = some out →
      (out = "/mnt/sdcard".toList ∨ out = "/mnt/sdcard\n".toList) →
      step sys ⟨done ++ (pre ++ leading ++ SD_CARD_MOUNT_PATH ++ "/*".toList ++ rest),
          done.length, calls⟩ =
        some ⟨done ++ (pre ++ (leading ++ "/mnt/sdcard/*".toList) ++ rest),
          done.length + pre.length + (leading ++ "/mnt/sdcard/*".toList).length,
          calls ++ [Call.getenv SD_CARD_MOUNT_PATH, Call.popen MOUNT_PATH_COMMAND]⟩) := by
  refine ⟨lookup_env, popen_mem_lookup, lookup_fallback, ?_⟩
  intro sys done pre leading rest out calls hp henv hsh hout
  have hl := lookup_fallback sys out henv hsh
  have ht : trimBlanks out = "/mnt/sdcard".toList := by
    rcases hout with rfl | rfl <;> decide
  have hrep : replacement (some "/mnt/sdcard".toList) leading "/*".toList
      = leading ++ "/mnt/sdcard".toList ++ "/*".toList :=
    replacement_keep leading _ _ (by decide) (Or.inr ⟨'m', by decide, by decide⟩)
  have := step_placeholder sys done pre leading SD_CARD_MOUNT_PATH "/*".toList rest calls hp
  rw [hl] at this
  simp only [ht, hrep] at this
  rw [this]
  simp [List.append_assoc]

/-- C5 at the script `rm -rf SD_CARD_MOUNT_PATH/* /opt/x`, the variable set but
empty and the mount table command writing `/mnt/sdcard` and a line feed. -/
theorem C5_value_from_env_or_mount_table_witness :
    Placeholder "rm -rf".toList " ".toList SD_CARD_MOUNT_PATH "/*".toList " /opt/x".toList ∧
      step (envSdCard "/mnt/sdcard\n".toList)
          ⟨"rm -rf SD_CARD_MOUNT_PATH/* /opt/x".toList, 0, []⟩ =
        some ⟨"rm -rf /mnt/sdcard/* /opt/x".toList, 20,
          [Call.getenv SD_CARD_MOUNT_PATH, Call.popen MOUNT_PATH_COMMAND]⟩ :=
  ⟨by decide,
    C5_value_from_env_or_mount_table.2.2.2 (envSdCard "/mnt/sdcard\n".toList) []
      "rm -rf".toList " ".toList " /opt/x".toList "/mnt/sdcard\n".toList [] (by decide)
      (Or.inr (by decide)) (by decide) (Or.inr rfl)⟩

/-! ### The scan of `isClean` -/

theorem foldl_scanLine (u : Utils) (age : Int) (lines : List Str) (st : Scan) :
    lines.foldl (scanLine u age) st =
      ⟨st.existedObjects ++
          (if age > -1 then lines.filter (fun line => u.isFileExistsAndOlderThen line age)
            else lines),
        st.totalPathsCounter + lines.length,
        st.calls ++ (if age > -1 then lines.map (fun line =>
          UCall.isFileExistsAndOlderThen line age) else [])⟩ := by
  induction lines generalizing st with
  | nil => cases st; simp
  | cons l ls ih =>
    rw [List.foldl_cons, ih]
    by_cases ha : age > -1
    · cases hs : u.isFileExistsAndOlderThen l age <;>
        simp [scanLine, ha, hs, List.filter, Nat.add_assoc, Nat.add_comm 1]
    · simp [scanLine, ha, Nat.add_assoc, Nat.add_comm 1]

/-- The branch of a wildcard pattern and of a plain path: what they add to
`existedObjects`. -/
theorem scanObjects_existedObjects (u : Utils) (age : Int) (st : Scan) (path : Str) :
    (scanObjects u age st path).existedObjects = st.existedObjects ++
      (if isWildcard path then
        (if age > -1 then
          (candidates u path).filter (fun line => u.isFileExistsAndOlderThen line age)
        else candidates u path)
      else if u.isFileExistsAndOlderThen path age then [path] else []) := by
  unfold scanObjects candidates
  by_cases hw : isWildcard path = true
  · simp only [hw, if_true]
    by_cases hl : (u.trim (u.cRunScript (findScript path))).length > 1
    · simp only [hl, if_true, foldl_scanLine]
    · simp only [hl, if_false]
      by_cases ha : age > -1 <;> simp [ha]
  · simp only [hw, Bool.false_eq_true, if_false]
    cases u.isFileExistsAndOlderThen path age <;> simp

theorem scanPath_existedObjects (u : Utils) (age : Int) (st : Scan) (path : Str) :
    (scanPath u age st path).existedObjects = st.existedObjects ++ contribution u age path := by
  unfold scanPath contribution skipped
  by_cases hd : path.contains '$' = true
  · simp only [hd, if_true, Bool.true_and]
    by_cases hv : (variableValue u path).2.1 = []
    · simp [hv]
    · have hne : ¬ (variableValue u path).2.1.length = 0 := by
        simpa [List.length_eq_zero] using hv
      have hem : (variableValue u path).2.1.isEmpty = false := by
        cases h : (variableValue u path).2.1 with
        | nil => exact absurd h hv
        | cons a l => rfl
      simp only [hne, if_false, hem, Bool.false_eq_true, scanObjects_existedObjects]
  · simp only [hd, Bool.false_eq_true, if_false, Bool.false_and, scanObjects_existedObjects]

theorem scanPaths_existedObjects (u : Utils) (age : Int) (paths : List Str) (st : Scan) :
    (scanPaths u age st paths).existedObjects =
      st.existedObjects ++ paths.flatMap (contribution u age) := by
  induction paths generalizing st with
  | nil => simp [scanPaths]
  | cons p ps ih =>
    have := ih (scanPath u age st p)
    unfold scanPaths at this ⊢
    rw [List.foldl_cons, this, scanPath_existedObjects]
    simp [List.flatMap, List.append_assoc]

theorem contribution_plain (u : Utils) (age : Int) (path : Str)
    (hd : path.contains '$' = false) (hw : isWildcard path = false) :
    contribution u age path = if u.isFileExistsAndOlderThen path age then [path] else [] := by
  unfold contribution skipped
  rw [hd, hw]
  simp

theorem isClean_scan (u : Utils) (content : Str) (age : Int)
    (h : listPathsToRemove u content ≠ []) :
    isClean u (some content) age =
      ⟨⟨some true, none,
          some ((scanPaths u age ⟨[], 0, []⟩ (listPathsToRemove u content)).existedObjects.length
            == 0),
          some (scanPaths u age ⟨[], 0, []⟩ (listPathsToRemove u content)).existedObjects⟩,
        (scanPaths u age ⟨[], 0, []⟩ (listPathsToRemove u content)).totalPathsCounter,
        (scanPaths u age ⟨[], 0, []⟩ (listPathsToRemove u content)).calls⟩ := by
  have hl : ¬ (listPathsToRemove u content).length = 0 := by
    simpa [List.length_eq_zero] using h
  simp only [isClean, hl, if_false]

/-- C6, as stated, fails: with no age threshold (`age = -1`) the wildcard
pattern `/opt/*`, for which `find` prints the line `/opt/gone`, puts that line
in `files` although `isFileExistsAndOlderThen` rejects it, so `files` is not
the concatenation of the candidates that `isFileExistsAndOlderThen` accepts. -/
theorem C6_wildcard_without_age_counterexample :
    listPathsToRemove utilsExample "/opt/*\n".toList = ["/opt/*".toList] ∧
      candidates utilsExample "/opt/*".toList = ["/opt/gone".toList] ∧
      utilsExample.isFileExistsAndOlderThen "/opt/gone".toList (-1) = false ∧
      (isClean utilsExample (some "/opt/*\n".toList) (-1)).response.success = some true ∧
      (isClean utilsExample (some "/opt/*\n".toList) (-1)).response.files =
        some ["/opt/gone".toList] ∧
      (listPathsToRemove utilsExample "/opt/*\n".toList).flatMap
        (contributionSpec utilsExample (-1)) = [] ∧
      (isClean utilsExample (some "/opt/*\n".toList) (-1)).response.files ≠
        some ((listPathsToRemove utilsExample "/opt/*\n".toList).flatMap
          (contributionSpec utilsExample (-1))) := by
  refine ⟨?_, ?_, ?_, ?_, ?_, ?_, ?_⟩ <;> decide

/-- C6, amended: for every configuration with at least one pattern, the scan
succeeds and `files` is the concatenation, in the order of the patterns, of
what each pattern adds: nothing for a skipped pattern; for a wildcard pattern
its candidates in the order of the lines of the `find` output, all of them when
`age` is not above `-1` and those that `isFileExistsAndOlderThen` accepts when
it is; for a plain path the path itself exactly when `isFileExistsAndOlderThen`
accepts it.  With `age > -1` this is the concatenation of the claim.  For the
patterns `/opt/a.conf`, `/opt/missing.conf` of which only the first is
accepted, `files` is `[/opt/a.conf]` and `clean` is false. -/
theorem C6_files_concatenation (u : Utils) (content : Str) (age : Int)
    (h : listPathsToRemove u content ≠ []) :
    (isClean u (some content) age).response.success = some true ∧
      (isClean u (some content) age).response.files =
        some ((listPathsToRemove u content).flatMap (contribution u age)) ∧
      (age > -1 → ∀ path, contribution u age path = contributionSpec u age path) ∧
      (listPathsToRemove u content = ["/opt/a.conf".toList, "/opt/missing.conf".toList] →
        u.isFileExistsAndOlderThen "/opt/a.conf".toList age = true →
        u.isFileExistsAndOlderThen "/opt/missing.conf".toList age = false →
        (isClean u (some content) age).response.files = some ["/opt/a.conf".toList] ∧
        (isClean u (some content) age).response.clean = some false) := by
  have hfiles : (isClean u (some content) age).response.files =
      some ((listPathsToRemove u content).flatMap (contribution u age)) := by
    rw [isClean_scan u content age h]
    simp [scanPaths_existedObjects]
  refine ⟨by rw [isClean_scan u content age h], hfiles, ?_, ?_⟩
  · intro ha path
    simp only [contribution, contributionSpec, ha, if_true]
  · intro hp h1 h2
    have c1 : contribution u age "/opt/a.conf".toList = ["/opt/a.conf".toList] := by
      rw [contribution_plain u age _ (by decide) (by decide), h1]
      rfl
    have c2 : contribution u age "/opt/missing.conf".toList = [] := by
      rw [contribution_plain u age _ (by decide) (by decide), h2]
      rfl
    have hc : (listPathsToRemove u content).flatMap (contribution u age)
        = ["/opt/a.conf".toList] := by
      rw [hp, List.flatMap_cons, List.flatMap_cons, List.flatMap_nil, c1, c2]
      rfl
    refine ⟨by rw [hfiles, hc], ?_⟩
    rw [isClean_scan u content age h, scanPaths_existedObjects, hc]
    rfl

/-- C6 (amended) at the configuration with the two lines `/opt/a.conf` and
`/opt/missing.conf`, on a device that has the first file only. -/
theorem C6_files_concatenation_witness :
    listPathsToRemove utilsExample "/opt/a.conf\n/opt/missing.conf\n".toList ≠ [] ∧
      (isClean utilsExample (some "/opt/a.conf\n/opt/missing.conf\n".toList) (-1)).response.files
        = some ["/opt/a.conf".toList] ∧
      (isClean utilsExample (some "/opt/a.conf\n/opt/missing.conf\n".toList) (-1)).response.clean
        = some false :=
  ⟨by decide,
    (C6_files_concatenation utilsExample "/opt/a.conf\n/opt/missing.conf\n".toList (-1)
      (by decide)).2.2.2 (by decide) (by decide) (by decide)⟩

/-- C7: whenever `isClean` reports `success = true`, it reports a list `files`
and a flag `clean`, and `clean` is true if and only if `files` is empty. -/
theorem C7_clean_iff_no_files (u : Utils) (customDataFile : Option Str) (age : Int)
    (h : (isClean u customDataFile age).response.success = some true) :
    ∃ files clean, (isClean u customDataFile age).response.files = some files ∧
      (isClean u customDataFile age).response.clean = some clean ∧
      (clean = true ↔ files = []) := by
  cases customDataFile with
  | none => simp [isClean] at h
  | some content =>
    by_cases hp : listPathsToRemove u content = []
    · simp [isClean, hp] at h
    · rw [isClean_scan u content age hp]
      exact ⟨_, _, rfl, rfl, by simp [List.length_eq_zero]⟩

/-- C7 at a configuration with the one line `/opt/a.conf`. -/
theorem C7_clean_iff_no_files_witness :
    (isClean utilsExample (some "/opt/a.conf\n".toList) (-1)).response.success = some true ∧
      ∃ files clean,
        (isClean utilsExample (some "/opt/a.conf\n".toList) (-1)).response.files = some files ∧
        (isClean utilsExample (some "/opt/a.conf\n".toList) (-1)).response.clean = some clean ∧
        (clean = true ↔ files = []) :=
  ⟨by decide, C7_clean_iff_no_files utilsExample (some "/opt/a.conf\n".toList) (-1) (by decide)⟩

/-! ### The configuration file -/

theorem foldl_listPaths_unchanged (u : Utils) (lines : List Str) (acc : List Str)
    (h : ∀ line ∈ lines, u.trim line = [] ∨ (u.trim line).head? = some '#' ∨
      (u.trim line).head? = some '[') :
    lines.foldl
      (fun acc line =>
        let line := u.trim line
        if line.length > 0 then
          match line.head? with
          | some firstChar => if firstChar ≠ '#' ∧ firstChar ≠ '[' then acc ++ [line] else acc
          | none => acc
        else acc)
      acc = acc := by
  induction lines generalizing acc with
  | nil => rfl
  | cons l ls ih =>
    rw [List.foldl_cons]
    have hl := h l (by simp)
    have hstep : (let line := u.trim l
        if line.length > 0 then
          match line.head? with
          | some firstChar => if firstChar ≠ '#' ∧ firstChar ≠ '[' then acc ++ [line] else acc
          | none => acc
        else acc) = acc := by
      dsimp only
      rcases hl with h0 | h1 | h2
      · rw [h0]; rfl
      · rw [h1]; simp
      · rw [h2]; simp
    rw [hstep]
    exact ih acc (fun line hm => h line (by simp [hm]))

theorem listPathsToRemove_nil (u : Utils) (content : Str)
    (h : ∀ line ∈ getlines content, u.trim line = [] ∨ (u.trim line).head? = some '#' ∨
      (u.trim line).head? = some '[') :
    listPathsToRemove u content = [] :=
  foldl_listPaths_unchanged u (getlines content) [] h

/-- C8: when the configuration file cannot be opened, or when every line of it
is, after trimming, empty or starts with `#` or with `[`, `isClean` reports
`success = false` with an error message and an empty list `files`, and makes no
external call at all (no variable resolution, no `find`, no check of a path);
the counter of processed paths stays at 0. -/
theorem C8_configuration_error (u : Utils) (customDataFile : Option Str) (age : Int)
    (h : customDataFile = none ∨ ∃ content, customDataFile = some content ∧
      ∀ line ∈ getlines content, u.trim line = [] ∨ (u.trim line).head? = some '#' ∨
        (u.trim line).head? = some '[') :
    (isClean u customDataFile age).response.success = some false ∧
      (∃ msg, (isClean u customDataFile age).response.error = some msg ∧ msg ≠ []) ∧
      (isClean u customDataFile age).response.files = some [] ∧
      (isClean u customDataFile age).calls = [] ∧
      (isClean u customDataFile age).totalPathsCounter = 0 := by
  rcases h with rfl | ⟨content, rfl, hl⟩
  · exact ⟨rfl, ⟨_, rfl, by decide⟩, rfl, rfl, rfl⟩
  · have hp := listPathsToRemove_nil u content hl
    simp only [isClean, hp, List.length_nil, if_true]
    exact ⟨trivial, ⟨_, rfl, by decide⟩, trivial, trivial, trivial⟩

/-- C8 at a configuration that holds a comment, a section header and a blank
line only. -/
theorem C8_configuration_error_witness :
    listPathsToRemove utilsExample "# paths\n[section]\n  \n".toList = [] ∧
      (isClean utilsExample (some "# paths\n[section]\n  \n".toList) (-1)).response.success
        = some false ∧
      (isClean utilsExample (some "# paths\n[section]\n  \n".toList) (-1)).calls = [] :=
  ⟨by decide,
    (C8_configuration_error utilsExample (some "# paths\n[section]\n  \n".toList) (-1)
      (Or.inr ⟨_, rfl, by decide⟩)).1,
    (C8_configuration_error utilsExample (some "# paths\n[section]\n  \n".toList) (-1)
      (Or.inr ⟨_, rfl, by decide⟩)).2.2.2.1⟩

/-! ### Skipped patterns and the `find` command line -/

theorem sedScript_ne_findScript (p q : Str) : sedScript p ≠ findScript q := by
  intro h
  have h1 : (sedScript p).head? = some 'e' := rfl
  have h2 : (findScript q).head? = some '.' := rfl
  rw [h, h2] at h1
  exact absurd h1 (by decide)

theorem echoScript_ne_findScript (v q : Str) : echoScript v ≠ findScript q := by
  intro h
  have h1 : (echoScript v).get? 26 = some 'e' := rfl
  have h2 : (findScript q).get? 26 = some 'f' := rfl
  rw [h, h2] at h1
  exact absurd h1 (by decide)

/-- C9: for every pattern that holds a `$` and for which the extracted name of
the variable is empty after trimming, or the value that the device properties
give for it is empty after trimming, the loop body adds nothing to
`existedObjects`, increments the counter by exactly one, and makes no other
external call than the extraction of the name and (when the name is not empty)
the evaluation of the variable: no `find` command and no check of a path; the
scan goes on with the next pattern from that state. -/
theorem C9_unresolved_variable_skipped (u : Utils) (age : Int) (st : Scan)
    (path : Str) (rest : List Str) (hd : '$' ∈ path)
    (hv : u.trim (u.cRunScript (sedScript path)) = [] ∨
      u.trim (u.cRunScript (echoScript (u.trim (u.cRunScript (sedScript path))))) = []) :
    ∃ cs : List UCall,
      scanPath u age st path =
        ⟨st.existedObjects, st.totalPathsCounter + 1, st.calls ++ cs⟩ ∧
      cs = (if u.trim (u.cRunScript (sedScript path)) = [] then
          [UCall.cRunScript (sedScript path)]
        else [UCall.cRunScript (sedScript path),
          UCall.cRunScript (echoScript (u.trim (u.cRunScript (sedScript path))))]) ∧
      (∀ c ∈ cs, (∀ q, c ≠ UCall.cRunScript (findScript q)) ∧
        ∀ p a, c ≠ UCall.isFileExistsAndOlderThen p a) ∧
      contribution u age path = [] ∧
      scanPaths u age st (path :: rest) =
        scanPaths u age ⟨st.existedObjects, st.totalPathsCounter + 1, st.calls ++ cs⟩ rest := by
  have hc : path.contains '$' = true := by simpa using hd
  have hval : (variableValue u path).2.1 = [] := by
    unfold variableValue
    dsimp only
    by_cases h0 : u.trim (u.cRunScript (sedScript path)) = []
    · simp [h0]
    · have hpos : (u.trim (u.cRunScript (sedScript path))).length > 0 :=
        List.length_pos.2 h0
      rw [if_pos hpos]
      rcases hv with h | h
      · exact absurd h h0
      · exact h
  have hcalls : (variableValue u path).2.2 =
      (if u.trim (u.cRunScript (sedScript path)) = [] then
          [UCall.cRunScript (sedScript path)]
        else [UCall.cRunScript (sedScript path),
          UCall.cRunScript (echoScript (u.trim (u.cRunScript (sedScript path))))]) := by
    unfold variableValue
    dsimp only
    by_cases h0 : u.trim (u.cRunScript (sedScript path)) = []
    · simp [h0]
    · have hpos : (u.trim (u.cRunScript (sedScript path))).length > 0 :=
        List.length_pos.2 h0
      rw [if_pos hpos, if_neg h0]
  have hstep : scanPath u age st path =
      ⟨st.existedObjects, st.totalPathsCounter + 1, st.calls ++ (variableValue u path).2.2⟩ := by
    unfold scanPath
    rw [if_pos hc]
    simp only [hval, List.length_nil, if_true]
  refine ⟨(variableValue u path).2.2, hstep, hcalls, ?_, ?_, ?_⟩
  · intro c hm
    rw [hcalls] at hm
    have hmem : c = UCall.cRunScript (sedScript path) ∨
        c = UCall.cRunScript (echoScript (u.trim (u.cRunScript (sedScript path)))) := by
      by_cases h0 : u.trim (u.cRunScript (sedScript path)) = []
      · rw [if_pos h0] at hm
        exact Or.inl (by simpa using hm)
      · rw [if_neg h0] at hm
        simpa using hm
    rcases hmem with rfl | rfl
    · refine ⟨fun q h => ?_, fun p a h => by cases h⟩
      injection h with h
      exact sedScript_ne_findScript _ _ h
    · refine ⟨fun q h => ?_, fun p a h => by cases h⟩
      injection h with h
      exact echoScript_ne_findScript _ _ h
  · unfold contribution skipped
    rw [hc, hval]
    rfl
  · unfold scanPaths
    rw [List.foldl_cons, hstep]

/-- C9 at the pattern `$APP_DIR/*`, for which the extraction of the name gives
nothing. -/
theorem C9_unresolved_variable_skipped_witness :
    '$' ∈ "$APP_DIR/*".toList ∧
      utilsExample.trim (utilsExample.cRunScript (sedScript "$APP_DIR/*".toList)) = [] ∧
      ∃ cs : List UCall,
        scanPath utilsExample (-1) ⟨[], 0, []⟩ "$APP_DIR/*".toList = ⟨[], 0 + 1, [] ++ cs⟩ ∧
        cs = [UCall.cRunScript (sedScript "$APP_DIR/*".toList)] :=
  ⟨by decide, by decide,
    (C9_unresolved_variable_skipped utilsExample (-1) ⟨[], 0, []⟩ "$APP_DIR/*".toList []
      (by decide) (Or.inl (by decide))).imp (fun _ h => ⟨h.1, h.2.1⟩)⟩

theorem findAt_two (a b : Char) (off : Nat) :
    findAt [a, b] "/*".toList off ≠ none ↔ (a = '/' ∧ b = '*') := by
  have hp : List.isPrefixOf ['/', '*'] [a, b] = ('/' == a && '*' == b) := by
    simp [List.isPrefixOf]
  have hq : List.isPrefixOf ['/', '*'] [b] = false := by
    simp [List.isPrefixOf]
  show findAt [a, b] ['/', '*'] off ≠ none ↔ _
  rw [findAt, hp, findAt, hq]
  by_cases ha : a = '/'
  · by_cases hb : b = '*'
    · subst ha hb; simp
    · subst ha
      have : ('*' == b) = false := by
        cases h : ('*' == b) with
        | false => rfl
        | true => exact absurd (beq_iff_eq.1 h).symm hb
      simp [this, hb, findAt]
  · have : ('/' == a) = false := by
      cases h : ('/' == a) with
      | false => rfl
      | true => exact absurd (beq_iff_eq.1 h).symm ha
    simp [this, ha, findAt]

/-- The search `path.find("/*", path.length() - 2)` succeeds exactly when the
last two characters of the path are `/*`. -/
theorem find_slash_star (path : Str) (hlen : path.length > 1) :
    find path "/*".toList (path.length - 2) ≠ none ↔ ∃ p, path = p ++ "/*".toList := by
  have hsplit : path = path.take (path.length - 2) ++ path.drop (path.length - 2) :=
    (List.take_append_drop _ _).symm
  have hdl : (path.drop (path.length - 2)).length = 2 := by
    rw [List.length_drop]; omega
  obtain ⟨a, b, hab⟩ : ∃ a b, path.drop (path.length - 2) = [a, b] := by
    match hd : path.drop (path.length - 2), hdl with
    | [a, b], _ => exact ⟨a, b, rfl⟩
  have hfind : find path "/*".toList (path.length - 2) = findAt [a, b] "/*".toList
      (path.length - 2) := by
    unfold find
    rw [if_neg (by omega), hab]
  rw [hfind, findAt_two]
  constructor
  · rintro ⟨rfl, rfl⟩
    refine ⟨path.take (path.length - 2), ?_⟩
    show path = path.take (path.length - 2) ++ ['/', '*']
    rw [← hab]
    exact hsplit
  · rintro ⟨p, hp⟩
    have hpl : p.length = path.length - 2 := by
      have := congrArg List.length hp
      simp at this
      omega
    have : path.drop (path.length - 2) = "/*".toList := by
      rw [← hpl]
      conv_lhs => rw [hp]
      simp
    rw [hab] at this
    injection this with h1 h2
    injection h2 with h2 h3
    exact ⟨h1, h2⟩

theorem maxDepth_eq_nil_iff (path : Str) :
    maxDepth path = [] ↔ ∃ p, path = p ++ "/*".toList := by
  unfold maxDepth
  by_cases hlen : path.length > 1
  · by_cases hf : find path "/*".toList (path.length - 2) ≠ none
    · rw [if_pos ⟨hlen, hf⟩]
      exact ⟨fun _ => (find_slash_star path hlen).1 hf, fun _ => rfl⟩
    · rw [if_neg (fun h => hf h.2)]
      constructor
      · intro h; exact absurd h (by decide)
      · intro h; exact absurd ((find_slash_star path hlen).2 h) hf
  · rw [if_neg (fun h => hlen h.1)]
    constructor
    · intro h; exact absurd h (by decide)
    · rintro ⟨p, hp⟩
      have := congrArg List.length hp
      simp at this
      omega

theorem maxDepth_cases (path : Str) :
    maxDepth path = [] ∨ maxDepth path = "-maxdepth 1 ".toList := by
  unfold maxDepth
  split
  · exact Or.inl rfl
  · exact Or.inr rfl

theorem scanObjects_calls_find (u : Utils) (age : Int) (st : Scan) (path : Str)
    (hw : isWildcard path = true) :
    UCall.cRunScript (findScript path) ∈ (scanObjects u age st path).calls := by
  unfold scanObjects
  simp only [hw, if_true]
  split
  · rw [foldl_scanLine]
    simp
  · simp

/-- C10: the string put between `-mindepth 1` and `! -path` of the `find`
command line is empty if and only if the last two characters of the pattern
are `/*`, and is `-maxdepth 1 ` otherwise, in particular for every pattern of
at most one character; so the command line for a pattern that ends in `/*`
has no depth restriction and every other one has `-maxdepth 1`.  This command
line is the one that the loop body runs for a pattern that holds `$`, `*`, `?`
or `+` and is not skipped. -/
theorem C10_maxdepth_omitted_iff_slash_star (u : Utils) (age : Int) (st : Scan) (path : Str) :
    (maxDepth path = [] ↔ ∃ p, path = p ++ "/*".toList) ∧
      (maxDepth path ≠ [] → maxDepth path = "-maxdepth 1 ".toList) ∧
      (path.length ≤ 1 → maxDepth path = "-maxdepth 1 ".toList) ∧
      ((∃ p, path = p ++ "/*".toList) → findScript path =
        ". /etc/device.properties; fp=\"".toList ++ path ++
          "\"; p=$\x7bfp%/*\x7d; f=$\x7bfp##*/\x7d; find $p -mindepth 1 ".toList ++
          "! -path \"*/\\.*\" -name \"$f\" 2>&1 | head -n 10".toList) ∧
      ((¬ ∃ p, path = p ++ "/*".toList) → findScript path =
        ". /etc/device.properties; fp=\"".toList ++ path ++
          "\"; p=$\x7bfp%/*\x7d; f=$\x7bfp##*/\x7d; find $p -mindepth 1 ".toList ++
          "-maxdepth 1 ".toList ++
          "! -path \"*/\\.*\" -name \"$f\" 2>&1 | head -n 10".toList) ∧
      (isWildcard path = true → skipped u path = false →
        UCall.cRunScript (findScript path) ∈ (scanPath u age st path).calls) := by
  have hiff := maxDepth_eq_nil_iff path
  have hne : maxDepth path ≠ [] → maxDepth path = "-maxdepth 1 ".toList := by
    intro h
    rcases maxDepth_cases path with h1 | h1
    · exact absurd h1 h
    · exact h1
  refine ⟨hiff, hne, ?_, ?_, ?_, ?_⟩
  · intro hlen
    apply hne
    intro h
    obtain ⟨p, hp⟩ := hiff.1 h
    have := congrArg List.length hp
    simp at this
    omega
  · intro h
    unfold findScript
    rw [hiff.2 h, List.append_nil]
  · intro h
    unfold findScript
    rw [hne (fun h0 => h (hiff.1 h0))]
  · intro hw hs
    unfold scanPath
    by_cases hd : path.contains '$' = true
    · rw [if_pos hd]
      have hv : ¬ (variableValue u path).2.1.length = 0 := by
        intro h0
        have : (variableValue u path).2.1 = [] := List.length_eq_zero.1 h0
        unfold skipped at hs
        rw [hd, this] at hs
        exact absurd hs (by decide)
      simp only [hv, if_false]
      exact scanObjects_calls_find u age _ path hw
    · rw [if_neg hd]
      exact scanObjects_calls_find u age _ path hw

/-- C10 at the patterns `/opt/x/*` (no depth restriction) and `/opt/*.ini`
(depth restricted). -/
theorem C10_maxdepth_omitted_iff_slash_star_witness :
    (∃ p, "/opt/x/*".toList = p ++ "/*".toList) ∧
      findScript "/opt/x/*".toList =
        ". /etc/device.properties; fp=\"/opt/x/*\"; p=$\x7bfp%/*\x7d; f=$\x7bfp##*/\x7d; find $p -mindepth 1 ! -path \"*/\\.*\" -name \"$f\" 2>&1 | head -n 10".toList ∧
      maxDepth "/opt/*.ini".toList = "-maxdepth 1 ".toList :=
  ⟨⟨"/opt/x".toList, rfl⟩,
    (C10_maxdepth_omitted_iff_slash_star utilsExample (-1) ⟨[], 0, []⟩
      "/opt/x/*".toList).2.2.2.1 ⟨"/opt/x".toList, rfl⟩,
    (C10_maxdepth_omitted_iff_slash_star utilsExample (-1) ⟨[], 0, []⟩
      "/opt/*.ini".toList).2.1 (by decide)⟩

/-! ### The candidates of a wildcard pattern -/

theorem scanObjects_wildcard (u : Utils) (age : Int) (st : Scan) (path : Str)
    (hw : isWildcard path = true) (hc : candidates u path ≠ []) :
    scanObjects u age st path =
      ⟨st.existedObjects ++
          (if age > -1 then
            (candidates u path).filter (fun line => u.isFileExistsAndOlderThen line age)
          else candidates u path),
        st.totalPathsCounter + (candidates u path).length,
        st.calls ++ [UCall.cRunScript (findScript path)] ++
          (if age > -1 then (candidates u path).map (fun line =>
            UCall.isFileExistsAndOlderThen line age) else [])⟩ := by
  unfold candidates at hc ⊢
  unfold scanObjects
  simp only [hw, if_true]
  by_cases hl : (u.trim (u.cRunScript (findScript path))).length > 1
  · simp only [hl, if_true, foldl_scanLine]
  · simp only [hl, if_false] at hc
    exact absurd rfl hc

theorem scanPath_of_not_skipped (u : Utils) (age : Int) (st : Scan) (path : Str)
    (hs : skipped u path = false) :
    ∃ cs : List UCall, (∀ c ∈ cs, ∀ p a, c ≠ UCall.isFileExistsAndOlderThen p a) ∧
      scanPath u age st path =
        scanObjects u age ⟨st.existedObjects, st.totalPathsCounter, st.calls ++ cs⟩ path := by
  unfold scanPath
  by_cases hd : path.contains '$' = true
  · rw [if_pos hd]
    have hv : ¬ (variableValue u path).2.1.length = 0 := by
      intro h0
      have : (variableValue u path).2.1 = [] := List.length_eq_zero.1 h0
      unfold skipped at hs
      rw [hd, this] at hs
      exact absurd hs (by decide)
    simp only [hv, if_false]
    refine ⟨(variableValue u path).2.2, ?_, rfl⟩
    intro c hm p a hca
    unfold variableValue at hm
    dsimp only at hm
    split at hm
    · simp only [List.mem_cons, List.mem_singleton, List.not_mem_nil, or_false] at hm
      rcases hm with h | h <;> rw [h] at hca <;> cases hca
    · simp only [List.mem_singleton] at hm
      rw [hm] at hca; cases hca
  · rw [if_neg hd]
    exact ⟨[], by simp, by cases st; simp⟩

theorem scanObjects_wildcard_fields (u : Utils) (age : Int) (st : Scan) (path : Str)
    (hw : isWildcard path = true) :
    (scanObjects u age st path).existedObjects = st.existedObjects ++
        (if age > -1 then
          (candidates u path).filter (fun line => u.isFileExistsAndOlderThen line age)
        else candidates u path) ∧
      (scanObjects u age st path).calls = st.calls ++ [UCall.cRunScript (findScript path)] ++
        (if age > -1 then (candidates u path).map (fun line =>
          UCall.isFileExistsAndOlderThen line age) else []) := by
  by_cases hc : candidates u path = []
  · have hl : ¬ (u.trim (u.cRunScript (findScript path))).length > 1 := by
      intro hl
      unfold candidates at hc
      simp only [hl, if_true] at hc
      have : (u.trim (u.cRunScript (findScript path))).length = 0 := by
        cases hr : u.trim (u.cRunScript (findScript path)) with
        | nil => rfl
        | cons a l =>
          rw [hr] at hc
          unfold getlines at hc
          split at hc
          · cases hc
          · split at hc <;> cases hc
      omega
    rw [hc]
    unfold scanObjects
    simp only [hw, if_true, hl, if_false]
    by_cases ha : age > -1 <;> simp [ha]
  · rw [scanObjects_wildcard u age st path hw hc]
    exact ⟨rfl, rfl⟩

/-- C11, as stated, fails: with no age threshold (`age = -1`) and the pattern
`/data/missing/*` of a directory that does not exist, the one line that the
`find` command writes (its error message) is a candidate that
`isFileExistsAndOlderThen` rejects, and yet it is put in `files`. -/
theorem C11_candidate_without_age_counterexample :
    candidates utilsMissingDir "/data/missing/*".toList =
        ["find: /data/missing: No such file or directory".toList] ∧
      utilsMissingDir.isFileExistsAndOlderThen
        "find: /data/missing: No such file or directory".toList (-1) = false ∧
      (isClean utilsMissingDir (some "/data/missing/*\n".toList) (-1)).response.files =
        some ["find: /data/missing: No such file or directory".toList] ∧
      (isClean utilsMissingDir (some "/data/missing/*\n".toList) (-1)).calls =
        [UCall.cRunScript (findScript "/data/missing/*".toList)] ∧
      ¬ (∀ line ∈ candidates utilsMissingDir "/data/missing/*".toList,
        (line ∈ ((isClean utilsMissingDir (some "/data/missing/*\n".toList)
            (-1)).response.files.getD []) ↔
          utilsMissingDir.isFileExistsAndOlderThen line (-1) = true)) := by
  refine ⟨?_, ?_, ?_, ?_, ?_⟩ <;> decide

/-- C11, amended: for every pattern that takes the wildcard branch and every
candidate line of its `find` output, when `age > -1` the loop body asks
`isFileExistsAndOlderThen` about each candidate, in order, and adds to `files`
exactly the candidates that it accepts; when `age` is not above `-1` (no
threshold) the loop body adds every candidate and makes no call of
`isFileExistsAndOlderThen` at all. -/
theorem C11_candidate_added_iff (u : Utils) (age : Int) (st : Scan) (path : Str)
    (hw : isWildcard path = true) (hs : skipped u path = false) :
    ∃ (cs : List UCall) (added : List Str) (checks : List UCall),
      (∀ c ∈ cs, ∀ p a, c ≠ UCall.isFileExistsAndOlderThen p a) ∧
      (scanPath u age st path).existedObjects = st.existedObjects ++ added ∧
      (scanPath u age st path).calls =
        st.calls ++ cs ++ [UCall.cRunScript (findScript path)] ++ checks ∧
      (age > -1 →
        added = (candidates u path).filter (fun line => u.isFileExistsAndOlderThen line age) ∧
        checks = (candidates u path).map (fun line => UCall.isFileExistsAndOlderThen line age) ∧
        ∀ line ∈ candidates u path,
          (line ∈ added ↔ u.isFileExistsAndOlderThen line age = true)) ∧
      (¬ age > -1 →
        added = candidates u path ∧ checks = [] ∧ ∀ line ∈ candidates u path, line ∈ added) := by
  obtain ⟨cs, hcs, hstep⟩ := scanPath_of_not_skipped u age st path hs
  obtain ⟨h1, h2⟩ := scanObjects_wildcard_fields u age
    ⟨st.existedObjects, st.totalPathsCounter, st.calls ++ cs⟩ path hw
  refine ⟨cs,
    (if age > -1 then
      (candidates u path).filter (fun line => u.isFileExistsAndOlderThen line age)
    else candidates u path),
    (if age > -1 then (candidates u path).map (fun line =>
      UCall.isFileExistsAndOlderThen line age) else []), hcs, ?_, ?_, ?_, ?_⟩
  · rw [hstep, h1]
  · rw [hstep, h2]
  · intro ha
    simp only [if_pos ha, true_and]
    intro line hm
    simp [List.mem_filter, hm]
  · intro ha
    simp only [if_neg ha, true_and]
    exact fun line hm => hm

/-- C11 (amended) at the pattern `/opt/*` with the threshold `age = 0`: the
candidate `/opt/gone` is checked and, being rejected, not added. -/
theorem C11_candidate_added_iff_witness :
    isWildcard "/opt/*".toList = true ∧ skipped utilsExample "/opt/*".toList = false ∧
      ∃ (_ : List UCall) (added : List Str) (checks : List UCall),
        (scanPath utilsExample 0 ⟨[], 0, []⟩ "/opt/*".toList).existedObjects = [] ++ added ∧
        ((0 : Int) > -1 →
          added = (candidates utilsExample "/opt/*".toList).filter
            (fun line => utilsExample.isFileExistsAndOlderThen line 0) ∧
          checks = (candidates utilsExample "/opt/*".toList).map
            (fun line => UCall.isFileExistsAndOlderThen line 0)) :=
  ⟨by decide, by decide,
    (C11_candidate_added_iff utilsExample 0 ⟨[], 0, []⟩ "/opt/*".toList (by decide)
      (by decide)).imp (fun _ h => h.imp (fun _ h => h.imp (fun _ h =>
        ⟨h.2.1, fun ha => ⟨(h.2.2.2.1 ha).1, (h.2.2.2.1 ha).2.1⟩⟩)))⟩

/-! ### The resolver that never modifies the template -/

theorem matchesFrom_of_noPlaceholder (fuel : Nat) (template : Str) (cursor : Nat)
    (h : hasPlaceholder (template.drop cursor) = false) :
    matchesFrom (fuel + 1) template cursor = some [] := by
  unfold matchesFrom
  rw [regexec_none_of_noPlaceholder _ h]

theorem matchesFrom_placeholder (fuel : Nat) (done pre leading name suffix rest : Str)
    (h : Placeholder pre leading name suffix rest) :
    matchesFrom (fuel + 1) (done ++ (pre ++ leading ++ name ++ suffix ++ rest)) done.length =
      (matchesFrom fuel (done ++ (pre ++ leading ++ name ++ suffix ++ rest))
        (done.length + (pre.length + leading.length + name.length + suffix.length))).map
        (fun ms =>
          (⟨⟨done.length + pre.length,
              done.length + (pre.length + leading.length + name.length + suffix.length)⟩,
            ⟨done.length + pre.length, done.length + (pre.length + leading.length)⟩,
            ⟨done.length + (pre.length + leading.length),
              done.length + (pre.length + leading.length + name.length)⟩,
            ⟨done.length + (pre.length + leading.length + name.length),
              done.length + (pre.length + leading.length + name.length + suffix.length)⟩⟩
            : Regmatch) :: ms) := by
  have hr := regexec_placeholder pre leading name suffix rest h
  rw [matchesFrom]
  simp only [List.drop_left, hr, absolute]

theorem emit_placeholder (sys : Sys) (done pre leading name suffix rest : Str)
    (ms : List Regmatch) :
    emit sys (done ++ (pre ++ leading ++ name ++ suffix ++ rest)) done.length
      ((⟨⟨done.length + pre.length,
          done.length + (pre.length + leading.length + name.length + suffix.length)⟩,
        ⟨done.length + pre.length, done.length + (pre.length + leading.length)⟩,
        ⟨done.length + (pre.length + leading.length),
          done.length + (pre.length + leading.length + name.length)⟩,
        ⟨done.length + (pre.length + leading.length + name.length),
          done.length + (pre.length + leading.length + name.length + suffix.length)⟩⟩
        : Regmatch) :: ms) =
      pre ++ replacement (lookup sys name).1 leading suffix ++
        emit sys (done ++ (pre ++ leading ++ name ++ suffix ++ rest))
          (done.length + (pre.length + leading.length + name.length + suffix.length)) ms := by
  have hpre : substr (done ++ (pre ++ leading ++ name ++ suffix ++ rest)) done.length
      (done.length + pre.length - done.length) = pre := by
    rw [show done ++ (pre ++ leading ++ name ++ suffix ++ rest)
      = done ++ pre ++ (leading ++ name ++ suffix ++ rest) by simp [List.append_assoc]]
    exact substr_mid _ _ _ _ _ rfl (by omega)
  have hv : substr (done ++ (pre ++ leading ++ name ++ suffix ++ rest))
      (done.length + (pre.length + leading.length))
      (done.length + (pre.length + leading.length + name.length)
        - (done.length + (pre.length + leading.length))) = name := by
    rw [show done ++ (pre ++ leading ++ name ++ suffix ++ rest)
      = (done ++ pre ++ leading) ++ name ++ (suffix ++ rest) by simp [List.append_assoc]]
    exact substr_mid _ _ _ _ _ (by simp [Nat.add_assoc]) (by omega)
  have hl : substr (done ++ (pre ++ leading ++ name ++ suffix ++ rest))
      (done.length + pre.length)
      (done.length + (pre.length + leading.length) - (done.length + pre.length))
      = leading := by
    rw [show done ++ (pre ++ leading ++ name ++ suffix ++ rest)
      = (done ++ pre) ++ leading ++ (name ++ suffix ++ rest) by simp [List.append_assoc]]
    exact substr_mid _ _ _ _ _ (by simp) (by omega)
  have hs : substr (done ++ (pre ++ leading ++ name ++ suffix ++ rest))
      (done.length + (pre.length + leading.length + name.length))
      (done.length + (pre.length + leading.length + name.length + suffix.length)
        - (done.length + (pre.length + leading.length + name.length))) = suffix := by
    rw [show done ++ (pre ++ leading ++ name ++ suffix ++ rest)
      = (done ++ pre ++ leading ++ name) ++ suffix ++ rest by simp [List.append_assoc]]
    exact substr_mid _ _ _ _ _ (by simp [Nat.add_assoc]) (by omega)
  rw [emit]
  simp only [hpre, hv, hl, hs]

/-- The output of the resolver that never modifies the template, started at
the offset of `t` in `done ++ t`, is the script that `lightReset` produces for
`t`. -/
theorem matchesFrom_emit (sys : Sys) (fuel : Nat) (done t : Str) (hf : t.length < fuel) :
    (matchesFrom fuel (done ++ t) done.length).map (emit sys (done ++ t) done.length) =
      resolve sys t := by
  induction fuel generalizing done t with
  | zero => omega
  | succ n ih =>
    cases hp : hasPlaceholder t with
    | false =>
      rw [matchesFrom_of_noPlaceholder n _ _ (by simpa using hp)]
      simp [emit, resolve, lightReset_of_noPlaceholder sys t hp]
    | true =>
      obtain ⟨pre, l, nm, sf, rest, heq, hpl⟩ := exists_placeholder t hp
      subst heq
      have hlen : rest.length < n := by
        have hl : 0 < l.length := List.length_pos.2 hpl.2.2.1
        simp only [List.length_append] at hf
        omega
      have hih := ih (done ++ (pre ++ l ++ nm ++ sf)) rest hlen
      have hT : done ++ (pre ++ l ++ nm ++ sf) ++ rest = done ++ (pre ++ l ++ nm ++ sf ++ rest) := by
        simp [List.append_assoc]
      have hL : (done ++ (pre ++ l ++ nm ++ sf)).length
          = done.length + (pre.length + l.length + nm.length + sf.length) := by
        simp [List.length_append, Nat.add_assoc]
      rw [hT, hL] at hih
      rw [matchesFrom_placeholder n done pre l nm sf rest hpl, Option.map_map,
        resolve_placeholder sys pre l nm sf rest hpl, ← hih, Option.map_map]
      congr 1
      funext ms
      simp only [Function.comp, emit_placeholder]

/-- C12: for every template and environment, the script that the in-place
rewrite of `lightReset` produces (search from a cursor in the modified string,
replace, move the cursor behind the replacement) is the string obtained by
enumerating the successive leftmost non-overlapping matches of the unmodified
template and emitting, left to right, the unmatched text and the replacement
of each match; both computations end.  Text put in by a substitution is not
searched: with `A` set to ` B` and `B` to `/b`, the script `echo A B` becomes
`echo  B /b`, the inserted ` B` being kept as it is. -/
theorem C12_inplace_rewrite_eq_immutable (sys : Sys) (template : Str) :
    resolve sys template = resolveImmutable sys template ∧
      (∃ out, resolve sys template = some out) ∧
      resolve envNested "echo A B".toList = some "echo  B /b".toList ∧
      resolveImmutable envNested "echo A B".toList = some "echo  B /b".toList := by
  refine ⟨?_, resolve_terminates sys template, by decide, by decide⟩
  have := matchesFrom_emit sys (template.length + 1) [] template (by omega)
  simpa [resolveImmutable] using this.symm

/-! ### The guard against the root directory -/

theorem replacement_slashes (leading suffix value : Str) (hv : value ≠ [])
    (hc : ∀ c ∈ value ++ suffix, c = '/') : replacement (some value) leading suffix = [] := by
  obtain ⟨e, es, rfl⟩ : ∃ e es, value = e :: es := by
    cases value with
    | nil => exact absurd rfl hv
    | cons a l => exact ⟨a, l, rfl⟩
  have hnone : find_first_not_of (e :: es ++ suffix) ['/'] = none :=
    find_first_not_of_none _ _ (fun c hm => by simp [hc c hm])
  have hhead : (e :: es ++ suffix).head? = some '/' := by
    have := hc e (by simp)
    simp [this]
  unfold replacement
  simp only [hnone, hhead, List.length_cons, List.cons_append, gt_iff_lt, Nat.zero_lt_succ,
    if_true]
  simp only [List.cons_append] at hnone hhead
  simp [hnone, hhead]

/-- C13, as stated, fails for `//*`: with `ROOT` set to `/`, the placeholder
` ROOT/*` of the script `rm -rf ROOT/*` has the candidate `//*`, and the loop
body replaces it by the empty string, not by ` //*`. -/
theorem C13_double_slash_star_counterexample :
    Placeholder "rm -rf".toList " ".toList "ROOT".toList "/*".toList [] ∧
      (lookup envRoot "ROOT".toList).1 = some "/".toList ∧
      "/".toList ++ "/*".toList = "//*".toList ∧
      replacement (some "/".toList) " ".toList "/*".toList = [] ∧
      step envRoot ⟨"rm -rf ROOT/*".toList, 0, []⟩ =
        some ⟨"rm -rf".toList, 6, [Call.getenv "ROOT".toList]⟩ ∧
      resolve envRoot "rm -rf ROOT/*".toList = some "rm -rf".toList ∧
      resolve envRoot "rm -rf ROOT/*".toList ≠ some "rm -rf //*".toList := by
  refine ⟨?_, ?_, ?_, ?_, ?_, ?_, ?_⟩ <;> decide

/-- C13, amended: at every state of the loop whose text after the cursor has
its leftmost placeholder after `pre`, a candidate (value that is not empty,
followed by the suffix) equal to `/./*` does not trigger the guard, and the
loop body replaces the span of the placeholder by the leading white space
followed by `/./*`; a candidate equal to `//*` does trigger the guard (the
first character behind the leading slashes is `*`), and the loop body replaces
the span by the empty string. -/
theorem C13_guard_on_slash_variants (sys : Sys)
    (done pre leading name suffix rest value : Str) (calls : List Call)
    (hp : Placeholder pre leading name suffix rest)
    (hv : (lookup sys name).1 = some value) (hne : value ≠ []) :
    (value ++ suffix = "/./*".toList →
      step sys ⟨done ++ (pre ++ leading ++ name ++ suffix ++ rest), done.length, calls⟩ =
        some ⟨done ++ (pre ++ (leading ++ "/./*".toList) ++ rest),
          done.length + pre.length + (leading ++ "/./*".toList).length,
          calls ++ (lookup sys name).2⟩) ∧
    (value ++ suffix = "//*".toList →
      step sys ⟨done ++ (pre ++ leading ++ name ++ suffix ++ rest), done.length, calls⟩ =
        some ⟨done ++ (pre ++ rest), done.length + pre.length, calls ++ (lookup sys name).2⟩) := by
  have hstep := step_placeholder sys done pre leading name suffix rest calls hp
  rw [hv] at hstep
  constructor
  · intro hc
    have hrep : replacement (some value) leading suffix = leading ++ value ++ suffix :=
      replacement_keep leading suffix value hne
        (Or.inr ⟨'.', by rw [hc]; decide, by decide⟩)
    rw [hrep, List.append_assoc leading value suffix, hc] at hstep
    exact hstep
  · intro hc
    have hrep : replacement (some value) leading suffix = [] := by
      obtain ⟨e, es, rfl⟩ : ∃ e es, value = e :: es := by
        cases value with
        | nil => exact absurd rfl hne
        | cons a l => exact ⟨a, l, rfl⟩
      unfold replacement
      simp only [hc]
      have hf : find_first_not_of "//*".toList ['/'] = some 2 := by decide
      simp only [hf]
      rfl
    rw [hrep] at hstep
    simpa using hstep

/-- C13 (amended) at the script `rm -rf DOT/*` with `DOT` set to `/.`: the
candidate `/./*` is kept. -/
theorem C13_guard_on_slash_variants_witness :
    Placeholder "rm -rf".toList " ".toList "DOT".toList "/*".toList [] ∧
      (lookup envDot "DOT".toList).1 = some "/.".toList ∧
      step envDot ⟨"rm -rf DOT/*".toList, 0, []⟩ =
        some ⟨"rm -rf /./*".toList, 11, [Call.getenv "DOT".toList]⟩ :=
  ⟨by decide, by decide,
    (C13_guard_on_slash_variants envDot [] "rm -rf".toList " ".toList "DOT".toList
      "/*".toList [] "/.".toList [] (by decide) (by decide) (by decide)).1 (by decide)⟩

/-! ### Termination -/

theorem regexec_bounds (s : Str) (rm : Regmatch) (h : regexec s = some rm) :
    rm.rm0.rm_so < rm.rm0.rm_eo ∧ rm.rm0.rm_eo ≤ s.length := by
  have hpos : hasPlaceholder s = true := by
    cases hh : hasPlaceholder s with
    | true => rfl
    | false => rw [regexec_none_of_noPlaceholder s hh] at h; cases h
  obtain ⟨pre, l, n, sf, rest, heq, hp⟩ := exists_placeholder s hpos
  rw [heq, regexec_placeholder pre l n sf rest hp] at h
  injection h with h
  have hl : 0 < l.length := List.length_pos.2 hp.2.2.1
  rw [← h, heq]
  simp only [List.length_append]
  omega

/-- C14: the substitution loop of `lightReset` ends for every template and
every environment: the run with one evaluation of the loop condition more than
the template has characters reaches the end of the loop; every match that
`regexec` reports is not empty and lies inside the searched text; and every
execution of the loop body leaves strictly fewer characters after the cursor,
whatever the inserted value holds.  With `A` set to ` A` (white space followed
by the name itself) the script `echo A` becomes `echo  A` and the loop stops. -/
theorem C14_loop_terminates (sys : Sys) (template : Str) :
    (∃ st, lightReset sys template = some st) ∧
      (∀ s rm, regexec s = some rm → rm.rm0.rm_so < rm.rm0.rm_eo ∧ rm.rm0.rm_eo ≤ s.length) ∧
      (∀ st st', step sys st = some st' →
        st'.script.length - st'.pos < st.script.length - st.pos) ∧
      lightReset envSelf "echo A".toList =
        some ⟨"echo  A".toList, 7, [Call.getenv "A".toList]⟩ := by
  refine ⟨runFrom_terminates sys _, regexec_bounds, ?_, by decide⟩
  intro st st' h
  exact step_remaining sys st st' h

/-- C14 at the script `echo A` with `A` set to ` A`: the loop body runs once,
and two characters fewer remain after the cursor. -/
theorem C14_loop_terminates_witness :
    step envSelf ⟨"echo A".toList, 0, []⟩ =
        some ⟨"echo  A".toList, 7, [Call.getenv "A".toList]⟩ ∧
      "echo  A".toList.length - 7 < "echo A".toList.length - 0 :=
  ⟨by decide,
    (C14_loop_terminates envSelf "echo A".toList).2.2.1 ⟨"echo A".toList, 0, []⟩
      ⟨"echo  A".toList, 7, [Call.getenv "A".toList]⟩ (by decide)⟩

/-- C15: at every state of the loop whose text after the cursor has its
leftmost placeholder after `pre`, when the value is not empty and the candidate
(value followed by suffix) consists of `/` characters only, the loop body
replaces the whole span of the placeholder by the empty string, and the script
that `lightReset` produces is `pre` followed by the resolved rest: no run of
slashes is put in the script.  With `ROOT` set to `/`, the scripts
`rm -rf ROOT` and `rm -rf ROOT/` both become `rm -rf`. -/
theorem C15_bare_root_removed (sys : Sys)
    (done pre leading name suffix rest value : Str) (calls : List Call)
    (hp : Placeholder pre leading name suffix rest)
    (hv : (lookup sys name).1 = some value) (hne : value ≠ [])
    (hc : ∀ c ∈ value ++ suffix, c = '/') :
    step sys ⟨done ++ (pre ++ leading ++ name ++ suffix ++ rest), done.length, calls⟩ =
        some ⟨done ++ (pre ++ rest), done.length + pre.length, calls ++ (lookup sys name).2⟩ ∧
      (∃ out, resolve sys rest = some out ∧
        resolve sys (pre ++ leading ++ name ++ suffix ++ rest) = some (pre ++ out)) ∧
      resolve envRoot "rm -rf ROOT".toList = some "rm -rf".toList ∧
      resolve envRoot "rm -rf ROOT/".toList = some "rm -rf".toList := by
  have hrep := replacement_slashes leading suffix value hne hc
  refine ⟨?_, ?_, by decide, by decide⟩
  · have := step_placeholder sys done pre leading name suffix rest calls hp
    rw [hv, hrep] at this
    simpa using this
  · obtain ⟨out, ho⟩ := resolve_terminates sys rest
    refine ⟨out, ho, ?_⟩
    rw [resolve_placeholder sys pre leading name suffix rest hp, hv, hrep, ho]
    simp

/-- C15 at the script `rm -rf ROOT/ /opt/x` with `ROOT` set to `/`. -/
theorem C15_bare_root_removed_witness :
    Placeholder "rm -rf".toList " ".toList "ROOT".toList "/".toList " /opt/x".toList ∧
      (lookup envRoot "ROOT".toList).1 = some "/".toList ∧
      step envRoot ⟨"rm -rf ROOT/ /opt/x".toList, 0, []⟩ =
        some ⟨"rm -rf /opt/x".toList, 6, [Call.getenv "ROOT".toList]⟩ :=
  ⟨by decide, by decide,
    (C15_bare_root_removed envRoot [] "rm -rf".toList " ".toList "ROOT".toList
      "/".toList " /opt/x".toList "/".toList [] (by decide) (by decide) (by decide)
      (by decide)).1⟩

end Warehouse
